import Mathlib

/-!
# Verification of the BabylonNative shader-compiler AST traversers

Shallow embedding of `Plugins/NativeEngine/Source/ShaderCompilerTraversers.cpp`:
the glslang AST node/type model as used by the five rewriting passes, the
generic symbol-replacement helper `makeReplacements`, and the five traversers
(`NonSamplerUniformToStructTraverser`, `UniformTypeChangeTraverser`,
`VertexVaryingInTraverser`, `SamplerSplitterTraverser`,
`InvertYDerivativeOperandsTraverser`).

Pointer-based in-place mutation is rendered as pure tree rewriting; raw
pointers (`TIntermTyped*`, which may be null) are rendered as an explicit
`null` node / `Option` where nullness is observable.  `std::map` is rendered
as a key-sorted association list (its iteration order is ascending key
order).
-/

namespace ShaderTraversers

/-- Storage class (glslang `TStorageQualifier`, restricted to the
constructors this file's code reads or writes). -/
inductive TStorage where
  | uniform
  | buffer
  | varyingIn
  | varyingOut
  | temporary
  | globalQ
  deriving DecidableEq, Repr

/-- Models `TQualifier::isUniformOrBuffer`. -/
def TStorage.isUniformOrBuffer : TStorage → Bool
  | .uniform => true
  | .buffer => true
  | _ => false

/-- Storage classes that make a symbol externally visible (enumerated in the
linker-object section): uniforms/buffers and stage inputs/outputs. -/
def TStorage.isExternal : TStorage → Bool
  | .uniform => true
  | .buffer => true
  | .varyingIn => true
  | .varyingOut => true
  | _ => false

/-- Basic type (glslang `TBasicType`, restricted). -/
inductive TBasicType where
  | float
  | int
  | uint
  | bool
  | sampler
  | structT
  | void
  deriving DecidableEq, Repr

/-- Precision qualifier. -/
inductive TPrecision where
  | none
  | low
  | medium
  | high
  deriving DecidableEq, Repr

/-- Matrix layout. -/
inductive TLayoutMatrix where
  | none
  | columnMajor
  | rowMajor
  deriving DecidableEq, Repr

/-- Packing rule. -/
inductive TLayoutPacking where
  | none
  | std140
  deriving DecidableEq, Repr

/-- glslang `TSampler`, restricted to the fields the code touches:
`combined` and the `sampler` flag ("pure sampler"). -/
structure TSampler where
  combined : Bool := false
  pureSampler : Bool := false
  deriving DecidableEq, Repr

/-- glslang `TQualifier`, restricted to the fields the code reads or
writes.  `layoutBinding`/`layoutLocation` are `none` when unset
(`clearLayout`). -/
structure TQualifier where
  storage : TStorage := .temporary
  precision : TPrecision := .none
  layoutMatrix : TLayoutMatrix := .none
  layoutPacking : TLayoutPacking := .none
  layoutBinding : Option Nat := none
  layoutLocation : Option Nat := none
  deriving DecidableEq, Repr

/-- A struct member type (an entry of a glslang `TTypeList`).  The member
types this file's code constructs never themselves carry a member list
(`TType{TPublicType}` with a null `userDef`), so members are flat. -/
structure FieldType where
  basic : TBasicType := .float
  vecSize : Nat := 1
  matCols : Nat := 0
  matRows : Nat := 0
  arraySizes : Option (List Nat) := none
  qualifier : TQualifier := {}
  sampler : TSampler := {}
  fieldName : String := ""
  deriving DecidableEq, Repr

/-- glslang `TType`, restricted to the fields the code reads or writes.
`fields` is the struct member list (empty for non-struct types). -/
structure TType where
  basic : TBasicType := .float
  vecSize : Nat := 1
  matCols : Nat := 0
  matRows : Nat := 0
  arraySizes : Option (List Nat) := none
  qualifier : TQualifier := {}
  sampler : TSampler := {}
  typeName : String := ""
  fields : List FieldType := []
  deriving DecidableEq, Repr

/-- Models `TType::isMatrix`. -/
def TType.isMatrix (t : TType) : Bool := t.matCols != 0

/-- Models `TType::isVector`. -/
def TType.isVector (t : TType) : Bool := t.vecSize > 1 && t.matCols == 0

/-- Models `TType::isArray`. -/
def TType.isArray (t : TType) : Bool := t.arraySizes.isSome

/-- View a struct member as a full `TType` (member types have no nested
member list). -/
def FieldType.toTType (f : FieldType) : TType :=
  { basic := f.basic, vecSize := f.vecSize, matCols := f.matCols,
    matRows := f.matRows, arraySizes := f.arraySizes,
    qualifier := f.qualifier, sampler := f.sampler }

/-- AST operator tags (glslang `TOperator`, restricted to the tags the code
matches on or constructs; `other` stands for every remaining operator). -/
inductive Op where
  | linkerObjects
  | indexDirectStruct
  | indexDirect
  | constructTextureSampler
  | negative
  | dPdy
  | dPdyFine
  | dPdyCoarse
  | shapeConversion
  | sequence
  | other (tag : Nat)
  deriving DecidableEq, Repr

/-- A glslang intermediate node (`TIntermNode`), restricted to the shapes the
code handles: symbols, constants, aggregates, binary and unary operations.
`null` renders a null `TIntermTyped*` (observable when a name lookup in
`makeReplacements` default-constructs a missing map entry). -/
inductive TNode where
  | symbol (id : Nat) (name : String) (ty : TType)
  | constUnion (value : Nat) (ty : TType)
  | aggregate (op : Op) (children : List TNode) (ty : TType)
  | binary (op : Op) (left : TNode) (right : TNode) (ty : TType)
  | unary (op : Op) (operand : TNode) (ty : TType)
  | null

mutual

/-- Names of externally-visible symbols occurring in a subtree (with
multiplicity). -/
def extNames : TNode → List String
  | .symbol _ n ty => if ty.qualifier.storage.isExternal then [n] else []
  | .constUnion _ _ => []
  | .aggregate _ cs _ => extNamesL cs
  | .binary _ l r _ => extNames l ++ extNames r
  | .unary _ o _ => extNames o
  | .null => []

/-- Mutual companion of `extNames` over a child sequence. -/
def extNamesL : List TNode → List String
  | [] => []
  | c :: cs => extNames c ++ extNamesL cs

end

/-- A raw node pointer (`TIntermTyped*` / `TIntermNode*` as compared by
identity in `makeReplacements`); `none` is C++ `nullptr`. -/
abbrev Ptr := Option Nat

/-- The parent node of a use-site record, as `makeReplacements` dispatches
on it: children are raw pointer slots.  `otherP` stands for every node kind
that is neither an aggregate, a binary node, nor a unary node (selection,
loop, branch, constant, symbol, ...). -/
inductive PNode where
  | aggregateP (children : List Ptr)
  | binaryP (left : Ptr) (right : Ptr)
  | unaryP (operand : Ptr)
  | otherP (kind : Nat)
  deriving DecidableEq, Repr

/-- Errors thrown by the replacement machinery.  The first renders
`throw std::runtime_error{"Cannot replace symbol: node type handler
unimplemented"}` (the spec's `UnsupportedReplacementTarget`); the second
renders `"Cannot replace symbol: array indexing handler unimplemented"`
from `UniformTypeChangeTraverser::visitSymbol`. -/
inductive PassErr where
  | unsupportedReplacementTarget
  | arrayIndexingUnimplemented
  deriving DecidableEq, Repr

/-- The per-record body of `makeReplacements` (lines 35-72): overwrite the
slot(s) of `parent` holding `symbol` (pointer identity) with `replacement`.
In-place mutation is rendered by returning the updated parent.  Note the
binary case: only the left child is compared; on a mismatch the right child
is overwritten without a comparison.  `RemoveAllTreeNodes` (teardown of the
detached subtree) does not affect the resulting tree and has no rendering
here. -/
def replaceInParent (replacement : Ptr) (symbol : Ptr) (parent : PNode) :
    Except PassErr PNode :=
  match parent with
  | .aggregateP cs =>
      .ok (.aggregateP (cs.map fun slot => if slot = symbol then replacement else slot))
  | .binaryP l r =>
      if l = symbol then .ok (.binaryP replacement r)
      else .ok (.binaryP l replacement)
  | .unaryP _ => .ok (.unaryP replacement)
  | .otherP _ => .error .unsupportedReplacementTarget

/-- Lookup on `std::map<std::string, TIntermTyped*>` via `operator[]`
(line 37): a missing key default-constructs and yields a null pointer. -/
def mapIndex (m : List (String × Ptr)) (name : String) : Ptr :=
  match m.find? (fun e => e.1 == name) with
  | some e => e.2
  | none => none

/-- A use-site record: a symbol (its name as read by the lookup, its
pointer identity) together with its parent node. -/
structure UseSite where
  symName : String
  symPtr : Ptr
  parent : PNode
  deriving DecidableEq, Repr

/-- Helper `makeReplacements` (lines 31-73): apply one replacement per
use-site record, looking the replacement up by the symbol's name; aborts at
the first record whose parent kind has no handler. -/
def makeReplacements (nameToReplacement : List (String × Ptr)) :
    List UseSite → Except PassErr (List PNode)
  | [] => .ok []
  | r :: rest => do
    let p ← replaceInParent (mapIndex nameToReplacement r.symName) r.symPtr r.parent
    let ps ← makeReplacements nameToReplacement rest
    .ok (p :: ps)

/-- The promoter's `injectShapeConversion` helper (lines 321-352): overwrite
the slot of `parent` holding `node` with `shapeConversion`.  Same dispatch
as `replaceInParent`, but the old slot contents are not torn down. -/
def injectShapeConversionAt (node : Ptr) (parent : PNode) (shapeConversion : Ptr) :
    Except PassErr PNode :=
  match parent with
  | .aggregateP cs =>
      .ok (.aggregateP (cs.map fun slot => if slot = node then shapeConversion else slot))
  | .binaryP l r =>
      if l = node then .ok (.binaryP shapeConversion r)
      else .ok (.binaryP l shapeConversion)
  | .unaryP _ => .ok (.unaryP shapeConversion)
  | .otherP _ => .error .unsupportedReplacementTarget

/-- Strict character order of `std::string` comparison (by character
code). -/
def charLt (c d : Char) : Bool := Nat.blt c.toNat d.toNat

/-- Lexicographic order on character sequences (the order `std::string`'s
`operator<` implements, which keys every `std::map<std::string, V>` in this
code). -/
def charsLt : List Char → List Char → Bool
  | [], [] => false
  | [], _ :: _ => true
  | _ :: _, [] => false
  | c :: cs, d :: ds =>
      if charLt c d then true
      else if charLt d c then false
      else charsLt cs ds

/-- Models `std::string` comparison. -/
def stringLt (a b : String) : Bool := charsLt a.data b.data

/-- Insertion `m[k] = v` on a `std::map<std::string, V>`, rendered on its
iteration order: keys are kept in ascending `std::string` order and an
existing key has its mapped value overwritten. -/
def mapInsert (k : String) (v : α) : List (String × α) → List (String × α)
  | [] => [(k, v)]
  | (k', v') :: rest =>
      if stringLt k k' then (k, v) :: (k', v') :: rest
      else if k = k' then (k, v) :: rest
      else (k', v') :: mapInsert k v rest

/-- Lookup on the association-list rendering of a `std::map`. -/
def mapFind? (m : List (String × α)) (k : String) : Option α :=
  match m.find? (fun e => e.1 == k) with
  | some e => some e.2
  | none => none

/-- Candidate test of `NonSamplerUniformToStructTraverser::visitSymbol`
(line 115): a non-sampler uniform-or-buffer symbol. -/
def isPackCandidate (ty : TType) : Bool :=
  ty.qualifier.storage.isUniformOrBuffer && ty.basic != .sampler

/-- Candidate test of `UniformTypeChangeTraverser::visitSymbol` (line 291):
a uniform-or-buffer that is neither a sampler nor a matrix. -/
def isPromoteCandidate (ty : TType) : Bool :=
  ty.qualifier.storage.isUniformOrBuffer && ty.basic != .sampler && !ty.isMatrix

/-- Candidate test of `VertexVaryingInTraverser::visitSymbol` (line 433):
a stage-input ("varying in") symbol. -/
def isVaryingCandidate (ty : TType) : Bool :=
  ty.qualifier.storage == .varyingIn

/-- Candidate test of `SamplerSplitterTraverser::visitSymbol` (line 580):
a plain-uniform sampler symbol. -/
def isSamplerCandidate (ty : TType) : Bool :=
  ty.qualifier.storage == .uniform && ty.basic == .sampler

/-- Phase 1 of a two-phase traverser, restricted to the linker-object
region: each candidate symbol entry is recorded `name → type` in a
`std::map` (e.g. `m_uniformNameToSymbol`, line 124; the map stores the
symbol, of which the later phases read only name and type).  One step of
the collection. -/
def collectStep (cand : TType → Bool) (m : List (String × TType)) :
    TNode → List (String × TType)
  | .symbol _ n ty => if cand ty then mapInsert n ty m else m
  | _ => m

/-- See `collectStep`: the whole collection phase folds it over the linker
entries. -/
def collectLinkerMap (cand : TType → Bool) (entries : List TNode) :
    List (String × TType) :=
  entries.foldl (collectStep cand) []

/-- Candidate names in order of first discovery by the traversal (the order
in which `visitSymbol` first sees each linker-object candidate). -/
def discoveredNames (cand : TType → Bool) (entries : List TNode) : List String :=
  entries.foldl
    (fun acc e =>
      match e with
      | .symbol _ n ty => if cand ty && !(acc.contains n) then acc ++ [n] else acc
      | _ => acc)
    []
mutual

/-- Phase 2 batch replacement (`makeReplacements` applied to the recorded
use sites), rendered as a rewrite of a non-linker subtree: every candidate
symbol occurrence is a recorded `(symbol, parent)` pair, and the parent's
slot is overwritten with `nameToReplacement[name]` — a null node when the
name is absent, as `operator[]` default-constructs the entry.  Replacement
nodes were built before the rewrite and are not traversed again. -/
def substCand (cand : TType → Bool) (m : List (String × TNode)) : TNode → TNode
  | .symbol i n ty => if cand ty then (mapFind? m n).getD .null else .symbol i n ty
  | .constUnion v ty => .constUnion v ty
  | .aggregate op cs ty => .aggregate op (substCandL cand m cs) ty
  | .binary op l r ty => .binary op (substCand cand m l) (substCand cand m r) ty
  | .unary op o ty => .unary op (substCand cand m o) ty
  | .null => .null

/-- Mutual companion of `substCand` over a child sequence. -/
def substCandL (cand : TType → Bool) (m : List (String × TNode)) :
    List TNode → List TNode
  | [] => []
  | c :: cs => substCand cand m c :: substCandL cand m cs

end

/-- Fixed qualifier of each member of the synthetic struct (lines 143-148):
uniform storage, high precision, column-major, std140. -/
def packMemberQualifier : TQualifier :=
  { storage := .uniform, precision := .high, layoutMatrix := .columnMajor,
    layoutPacking := .std140 }

/-- One member of the synthetic struct (loop at lines 155-189): the
candidate's matrix/vector shape (`setMatrix`/`setVector`, scalars as
1-vectors) and array sizes are copied, the basic type is copied, and the
member is named after the candidate. -/
def packMember (name : String) (ty : TType) : FieldType :=
  { basic := ty.basic,
    vecSize := if ty.isMatrix then 0 else if ty.isVector then ty.vecSize else 1,
    matCols := if ty.isMatrix then ty.matCols else 0,
    matRows := if ty.isMatrix then ty.matRows else 0,
    arraySizes := ty.arraySizes,
    qualifier := packMemberQualifier,
    fieldName := name }

/-- Member list of the synthetic struct: one member per entry of the
collected map, in its (ascending-name) iteration order. -/
def packStructMembers (entries : List TNode) : List FieldType :=
  (collectLinkerMap isPackCandidate entries).map (fun e => packMember e.1 e.2)

/-- Qualifier of the synthetic struct symbol itself (lines 192-197):
uniform, column-major, std140, binding slot 0. -/
def packStructQualifier : TQualifier :=
  { storage := .uniform, layoutMatrix := .columnMajor,
    layoutPacking := .std140, layoutBinding := some 0 }

/-- The synthetic struct type named `Frame` (line 200). -/
def packStructType (members : List FieldType) : TType :=
  { basic := .structT, typeName := "Frame", qualifier := packStructQualifier,
    fields := members }

/-- Type of `addConstantUnion(unsigned int idx, loc)` (line 217): a scalar
unsigned constant (external glslang helper). -/
def uintConstType : TType := { basic := .uint }

/-- Replacement map of the packer (loop at lines 212-221): member `idx`
maps its field name to `anon@0[idx]`, an `EOpIndexDirectStruct` binary node
with the struct symbol on the left, the positional index as a constant on
the right, typed as the member. -/
def packReplacements (structSym : TNode) : Nat → List FieldType → List (String × TNode)
  | _, [] => []
  | idx, mem :: rest =>
      (mem.fieldName,
        .binary .indexDirectStruct structSym (.constUnion idx uintConstType) mem.toTType)
        :: packReplacements structSym (idx + 1) rest

/-- Linker surgery of the packer (lines 229-245): erase every symbol entry
whose name was collected (reverse iteration with erasure, rendered as a
filter), then insert the struct symbol as the first element. -/
def packLinkerSurgery (collected : List (String × TType)) (structSym : TNode)
    (entries : List TNode) : List TNode :=
  structSym :: entries.filter (fun e =>
    match e with
    | .symbol _ n _ => (mapFind? collected n).isNone
    | _ => true)

/-- Linker entries of a tree whose last root child is the linker-objects
aggregate (empty otherwise). -/
def linkerEntriesOf (t : TNode) : List TNode :=
  match t with
  | .aggregate _ cs _ =>
      match cs.getLast? with
      | some (.aggregate .linkerObjects entries _) => entries
      | _ => []
  | _ => []

/-- Pass `MoveNonSamplerUniformsIntoStruct`
(`NonSamplerUniformToStructTraverser::Traverse`, lines 133-250) over one
stage's tree.  The traversal classifies a symbol by whether its depth-1
ancestor is the linker-objects aggregate; per the data model that aggregate
is the last root child, so the remaining root children form the use-site
body.  A tree without that shape is returned unchanged (the source would
dereference a null `getAsAggregate()`). -/
def moveNonSamplerUniformsIntoStruct (nextId : Nat) (t : TNode) : TNode :=
  match t with
  | .aggregate rop cs rty =>
      match cs.getLast? with
      | some (.aggregate .linkerObjects entries lty) =>
          let collected := collectLinkerMap isPackCandidate entries
          let members := packStructMembers entries
          let structSym := TNode.symbol nextId "anon@0" (packStructType members)
          let repl := packReplacements structSym 0 members
          let body := (cs.dropLast).map (substCand isPackCandidate repl)
          .aggregate rop
            (body ++ [.aggregate .linkerObjects
              (packLinkerSurgery collected structSym entries) lty]) rty
      | _ => t
  | _ => t
/-- The promoted type (lines 297-316): qualifier and array sizes are
copied, the basic type is forced to `float`, the shape is forced to a
4-vector. -/
def promoteType (ty : TType) : TType :=
  { basic := .float, vecSize := 4, matCols := 0, matRows := 0,
    arraySizes := ty.arraySizes, qualifier := ty.qualifier }

/-- Models glslang's `TIntermediate::addShapeConversion` (an external
library call): a synthetic node that reshapes its operand to the given
type, rendered as a dedicated unary wrapper carrying the target type. -/
def addShapeConversion (ty : TType) (n : TNode) : TNode :=
  .unary .shapeConversion n ty

/-- Models `TType::clearArraySizes` (line 384). -/
def clearArraySizes (ty : TType) : TType := { ty with arraySizes := none }

/-- Does this node hold a symbol the promoter treats through the
array-indexing path (candidate and array-typed, line 365)? -/
def isPromoteArraySym : TNode → Bool
  | .symbol _ _ ty => isPromoteCandidate ty && ty.isArray
  | _ => false

/-- Retype a symbol in place, `symbol->setType(newType)` (line 317). -/
def retypePromote : TNode → TNode
  | .symbol i n ty => .symbol i n (promoteType ty)
  | n => n

/-- Type carried by a typed node (`getType`); the empty type for a null
pointer. -/
def nodeType : TNode → TType
  | .symbol _ _ ty => ty
  | .constUnion _ ty => ty
  | .aggregate _ _ ty => ty
  | .binary _ _ _ ty => ty
  | .unary _ _ ty => ty
  | .null => {}

mutual

/-- Rendering of `UniformTypeChangeTraverser::visitSymbol` (lines 286-406)
over a non-linker subtree, as a rewrite of each node's child slots:

* a non-array candidate symbol is retyped in place and a shape conversion
  back to its original type is inserted between it and its parent
  (lines 397-401), i.e. its slot now holds `conversion(symbol)`;
* an array candidate symbol must sit under a binary node: the symbol is
  retyped, the binary node is retyped to the promoted element type with
  array sizes cleared, and the conversion to the binary node's original
  type is inserted one level further up, between the binary node and its
  own parent (lines 365-391) — rendered at the grandparent's slot;
* an array candidate under any other parent throws (lines 392-395).

When both children of one binary node are array candidates, the source's
second insertion scans the grandparent for a slot that no longer holds the
binary node; the rendering keeps the surviving net effect of the
aggregate-grandparent case (one conversion; both symbols retyped; the
binary node's type set per the later visit). -/
def promoteSlot : TNode → Except PassErr TNode
  | .symbol i n ty =>
      if isPromoteCandidate ty then
        if ty.isArray then .error .arrayIndexingUnimplemented
        else .ok (addShapeConversion ty (.symbol i n (promoteType ty)))
      else .ok (.symbol i n ty)
  | .constUnion v ty => .ok (.constUnion v ty)
  | .aggregate op cs ty => do
      let cs' ← promoteSlotL cs
      .ok (.aggregate op cs' ty)
  | .binary op l r ty =>
      if isPromoteArraySym l then
        if isPromoteArraySym r then
          .ok (addShapeConversion ty
            (.binary op (retypePromote l) (retypePromote r)
              (clearArraySizes (promoteType (nodeType r)))))
        else do
          let r' ← promoteSlot r
          .ok (addShapeConversion ty
            (.binary op (retypePromote l) r'
              (clearArraySizes (promoteType (nodeType l)))))
      else if isPromoteArraySym r then do
        let l' ← promoteSlot l
        .ok (addShapeConversion ty
          (.binary op l' (retypePromote r)
            (clearArraySizes (promoteType (nodeType r)))))
      else do
        let l' ← promoteSlot l
        let r' ← promoteSlot r
        .ok (.binary op l' r' ty)
  | .unary op o ty => do
      let o' ← promoteSlot o
      .ok (.unary op o' ty)
  | .null => .ok .null

/-- Mutual companion of `promoteSlot` over a child sequence. -/
def promoteSlotL : List TNode → Except PassErr (List TNode)
  | [] => .ok []
  | c :: cs => do
      let c' ← promoteSlot c
      let cs' ← promoteSlotL cs
      .ok (c' :: cs')

end

mutual

/-- The promoter inside the linker-objects region: `visitSymbol` retypes
candidate symbols but inserts no conversion and never throws (line 356:
`isLinkerObject` guards all reshaping). -/
def promoteLinkerNode : TNode → TNode
  | .symbol i n ty =>
      if isPromoteCandidate ty then .symbol i n (promoteType ty) else .symbol i n ty
  | .constUnion v ty => .constUnion v ty
  | .aggregate op cs ty => .aggregate op (promoteLinkerL cs) ty
  | .binary op l r ty => .binary op (promoteLinkerNode l) (promoteLinkerNode r) ty
  | .unary op o ty => .unary op (promoteLinkerNode o) ty
  | .null => .null

/-- Mutual companion of `promoteLinkerNode` over a child sequence. -/
def promoteLinkerL : List TNode → List TNode
  | [] => []
  | c :: cs => promoteLinkerNode c :: promoteLinkerL cs

end

/-- Is this node the linker-objects aggregate? -/
def isLinkerAggregate : TNode → Bool
  | .aggregate .linkerObjects _ _ => true
  | _ => false

/-- Root-child dispatch of the promoter: children that are linker-objects
aggregates (so that every symbol under them has the linker-tagged depth-1
ancestor `isLinkerObject` tests) get the retype-only treatment; all other
root children are use-site slots. -/
def changeUniformTypesL : List TNode → Except PassErr (List TNode)
  | [] => .ok []
  | c :: cs => do
      let c' ← if isLinkerAggregate c then .ok (promoteLinkerNode c) else promoteSlot c
      let cs' ← changeUniformTypesL cs
      .ok (c' :: cs')

/-- Pass `ChangeUniformTypes` (`UniformTypeChangeTraverser::Traverse`,
lines 258-416) over one stage's tree. -/
def changeUniformTypes (t : TNode) : Except PassErr TNode :=
  match t with
  | .aggregate rop cs rty => do
      let cs' ← changeUniformTypesL cs
      .ok (.aggregate rop cs' rty)
  | t => .ok t
/-- The bgfx attribute-name table compiled into the Apple/OpenGL build
(`s_attribName`, lines 454-474). -/
def s_attribName : List String :=
  ["a_position", "a_normal", "a_tangent", "a_bitangent",
   "a_color0", "a_color1", "a_color2", "a_color3",
   "a_indices", "a_weight",
   "a_texcoord0", "a_texcoord1", "a_texcoord2", "a_texcoord3",
   "a_texcoord4", "a_texcoord5", "a_texcoord6", "a_texcoord7"]

/-- Constant `FIRST_GENERIC_ATTRIBUTE_LOCATION` (line 564, non-Apple
build). -/
def FIRST_GENERIC_ATTRIBUTE_LOCATION : Nat := 10

/-- The fixed name table of `GetVaryingLocationAndNewNameForName`
(lines 492-501), quoting the bgfx `Attrib` constants (`Position` = 0 …
`TexCoord0` = 10, `TexCoord3` = 13, the indexing `s_attribName` mirrors);
`none` for an unmapped name. -/
def fixedAttribTable (name : String) : Option (Nat × String) :=
  if name = "position" then some (0, "a_position")
  else if name = "normal" then some (1, "a_normal")
  else if name = "tangent" then some (2, "a_tangent")
  else if name = "uv" then some (10, "a_texcoord0")
  else if name = "uv2" then some (11, "a_texcoord1")
  else if name = "uv3" then some (12, "a_texcoord2")
  else if name = "uv4" then some (13, "a_texcoord3")
  else if name = "color" then some (4, "a_color0")
  else if name = "matricesIndices" then some (8, "a_indices")
  else if name = "matricesWeights" then some (9, "a_weight")
  else none

/-- Method `GetVaryingLocationAndNewNameForName` (lines 477-505),
parametrised by the build variant (`apple = true` is the
`__APPLE__ | APIOpenGL`, capacity-constrained build, which ignores the
semantic name and hands out `s_attribName` entries in encounter order).
Takes and returns `m_genericAttributesRunningCount`. -/
def getVaryingLocationAndNewName (apple : Bool) (count : Nat) (name : String) :
    (Nat × String) × Nat :=
  if apple then ((count, s_attribName.getD count "a_position"), count + 1)
  else
    match fixedAttribTable name with
    | some (loc, newName) => ((loc, newName), count)
    | none => ((FIRST_GENERIC_ATTRIBUTE_LOCATION + count, name), count + 1)

/-- The uv naming-convention test of the pre-scan (line 526):
`name.size() >= 2 && name[0] == 'u' && name[1] == 'v'`. -/
def isUvName (n : String) : Bool :=
  match n.data with
  | 'u' :: 'v' :: _ => true
  | _ => false

/-- The uv pre-scan (lines 520-531): the number of collected varying names
following the texture-coordinate naming convention.  In the source this
loop is compiled only in the non-Apple (fixed-table) build. -/
def uvPrescanCount (collected : List (String × TType)) : Nat :=
  collected.foldl (fun k e => if isUvName e.1 then k + 1 else k) 0

/-- State carried through the varying-symbol creation loop (lines 535-559):
the running generic-attribute count and the shape fields of the single
`TPublicType` declared before the loop (line 517) — reassigned only for
matrix or vector candidates, so a scalar candidate inherits the shape left
by its predecessor — plus the accumulated outputs. -/
structure VaryingBuild where
  count : Nat
  vecSize : Nat
  matCols : Nat
  matRows : Nat
  nameMap : List (String × TNode)
  assigned : List (String × Nat × String)
  nextId : Nat

/-- One iteration of the loop at lines 535-559: resolve the location and
new name, copy the candidate's qualifier with the explicit layout location,
copy its matrix/vector shape (leaving the previous shape for scalars), and
synthesize the replacement symbol. -/
def varyingStep (apple : Bool) (st : VaryingBuild) (name : String) (ty : TType) :
    VaryingBuild :=
  let r := getVaryingLocationAndNewName apple st.count name
  let loc := r.1.1
  let newName := r.1.2
  let count' := r.2
  let shape : Nat × Nat × Nat :=
    if ty.isMatrix then (0, ty.matCols, ty.matRows)
    else if ty.isVector then (ty.vecSize, 0, 0)
    else (st.vecSize, st.matCols, st.matRows)
  let newTy : TType :=
    { basic := ty.basic, vecSize := shape.1, matCols := shape.2.1,
      matRows := shape.2.2,
      qualifier := { ty.qualifier with layoutLocation := some loc } }
  { count := count',
    vecSize := shape.1, matCols := shape.2.1, matRows := shape.2.2,
    nameMap := mapInsert name (TNode.symbol st.nextId newName newTy) st.nameMap,
    assigned := st.assigned ++ [(name, loc, newName)],
    nextId := st.nextId + 1 }

/-- The whole creation phase of the binder: the pre-scan seeds the running
count in the fixed-table build only (`#if !(__APPLE__ | APIOpenGL)`,
lines 520-531), then the loop runs over the collected map in its iteration
order. -/
def varyingBuildAll (apple : Bool) (nextId : Nat)
    (collected : List (String × TType)) : VaryingBuild :=
  collected.foldl (fun st e => varyingStep apple st e.1 e.2)
    { count := if apple then 0 else uvPrescanCount collected,
      vecSize := 0, matCols := 0, matRows := 0,
      nameMap := [], assigned := [], nextId := nextId }

/-- Binding-slot indices assigned by a binder run, in assignment order. -/
def assignedLocations (b : VaryingBuild) : List Nat :=
  b.assigned.map (fun e => e.2.1)

/-- Linker-entry replacement of the binder: varying entries are use-site
records like any other occurrence (lines 443-447), so `makeReplacements`
overwrites each entry slot with the freshly named symbol. -/
def varyingLinkerResult (apple : Bool) (nextId : Nat) (entries : List TNode) :
    List TNode :=
  let build := varyingBuildAll apple nextId (collectLinkerMap isVaryingCandidate entries)
  entries.map (fun e =>
    match e with
    | .symbol i n ty =>
        if isVaryingCandidate ty then (mapFind? build.nameMap n).getD .null
        else .symbol i n ty
    | e => e)

/-- Pass `AssignLocationsAndNamesToVertexVaryings`
(`VertexVaryingInTraverser::Traverse`, lines 421-569) over the
vertex-stage tree. -/
def assignLocationsAndNamesToVertexVaryings (apple : Bool) (nextId : Nat)
    (t : TNode) : TNode :=
  match t with
  | .aggregate rop cs rty =>
      match cs.getLast? with
      | some (.aggregate .linkerObjects entries lty) =>
          let build :=
            varyingBuildAll apple nextId (collectLinkerMap isVaryingCandidate entries)
          let body := (cs.dropLast).map (substCand isVaryingCandidate build.nameMap)
          .aggregate rop
            (body ++ [.aggregate .linkerObjects
              (varyingLinkerResult apple nextId entries) lty]) rty
      | _ => t
  | _ => t
/-- One split candidate's outputs (builder loop, lines 616-674). -/
structure SplitEntry where
  origName : String
  origTy : TType
  texture : TNode
  samplerSym : TNode
  recon : TNode

/-- The synthesized texture symbol (lines 623-637): the original qualifier
with high precision and the shared binding slot, the original sampler info
with `combined` cleared, the original basic type, and the name suffixed
`Texture`. -/
def splitTexture (binding : Nat) (id : Nat) (name : String) (ty : TType) : TNode :=
  .symbol id (name ++ "Texture")
    { basic := ty.basic,
      qualifier := { ty.qualifier with precision := .high, layoutBinding := some binding },
      sampler := { ty.sampler with combined := false } }

/-- The synthesized sampler symbol (lines 640-652): same qualifier
treatment and binding slot, but a default-constructed sampler info with
only the pure-`sampler` flag set, keeping the original name. -/
def splitSampler (binding : Nat) (id : Nat) (name : String) (ty : TType) : TNode :=
  .symbol id name
    { basic := ty.basic,
      qualifier := { ty.qualifier with precision := .high, layoutBinding := some binding },
      sampler := { pureSampler := true } }

/-- The reconstruction aggregate (lines 657-670):
`EOpConstructTextureSampler` over the texture/sampler pair, typed as a
temporary whose sampler info is the original's with `combined` set. -/
def splitRecon (texture samplerSym : TNode) (ty : TType) : TNode :=
  .aggregate .constructTextureSampler [texture, samplerSym]
    { basic := ty.basic,
      qualifier := { storage := .temporary },
      sampler := { ty.sampler with combined := true } }

/-- The splitter's builder loop (lines 616-674): `layoutBinding` starts at
0 and advances exactly once per candidate, shared by the candidate's
texture and sampler symbols. -/
def splitBuild (nextId : Nat) (binding : Nat) :
    List (String × TType) → List SplitEntry
  | [] => []
  | (name, ty) :: rest =>
      let tex := splitTexture binding nextId name ty
      let smp := splitSampler binding (nextId + 1) name ty
      { origName := name, origTy := ty, texture := tex, samplerSym := smp,
        recon := splitRecon tex smp ty } :: splitBuild (nextId + 2) (binding + 1) rest

/-- Map `nameToReplacement` of the splitter: each candidate name maps to
its reconstruction aggregate (line 672). -/
def splitReplacements (es : List SplitEntry) : List (String × TNode) :=
  es.map (fun e => (e.origName, e.recon))

/-- Linker surgery of the splitter (lines 677-700): each entry found in
`nameToNewTextureAndSampler` is removed and replaced in place by its
texture symbol followed immediately by its sampler symbol. -/
def splitLinkerSurgery (es : List SplitEntry) : List TNode → List TNode
  | [] => []
  | .symbol i n ty :: rest =>
      (match es.find? (fun e => e.origName == n) with
       | some e => e.texture :: e.samplerSym :: splitLinkerSurgery es rest
       | none => .symbol i n ty :: splitLinkerSurgery es rest)
  | c :: rest => c :: splitLinkerSurgery es rest

/-- Split entries a stage's tree gives rise to. -/
def splitEntriesFor (nextId : Nat) (entries : List TNode) : List SplitEntry :=
  splitBuild nextId 0 (collectLinkerMap isSamplerCandidate entries)

/-- Pass `SplitSamplersIntoSamplersAndTextures`
(`SamplerSplitterTraverser::Traverse`, lines 575-707) over one stage's
tree. -/
def splitSamplersIntoSamplersAndTextures (nextId : Nat) (t : TNode) : TNode :=
  match t with
  | .aggregate rop cs rty =>
      match cs.getLast? with
      | some (.aggregate .linkerObjects entries lty) =>
          let es := splitEntriesFor nextId entries
          let body := (cs.dropLast).map (substCand isSamplerCandidate (splitReplacements es))
          .aggregate rop
            (body ++ [.aggregate .linkerObjects (splitLinkerSurgery es entries) lty]) rty
      | _ => t
  | _ => t

/-- Is this operator a secondary-axis derivative (line 725)? -/
def isDPdyOp : Op → Bool
  | .dPdy => true
  | .dPdyFine => true
  | .dPdyCoarse => true
  | _ => false

mutual

/-- Pass `InvertYDerivativeOperands`
(`InvertYDerivativeOperandsTraverser`, lines 709-742) over the
fragment-stage tree: pre-order; a secondary-axis derivative has its operand
wrapped in a synthetic `EOpNegative` (typed as the operand, per glslang's
`addUnaryNode`) and its subtree is not descended into (`return false`);
every other node kind descends normally. -/
def invertYDerivativeOperands : TNode → TNode
  | .unary op o ty =>
      if isDPdyOp op then .unary op (.unary .negative o (nodeType o)) ty
      else .unary op (invertYDerivativeOperands o) ty
  | .aggregate op cs ty => .aggregate op (invertYDerivativeOperandsL cs) ty
  | .binary op l r ty =>
      .binary op (invertYDerivativeOperands l) (invertYDerivativeOperands r) ty
  | n => n

/-- Mutual companion of `invertYDerivativeOperands` over a child
sequence. -/
def invertYDerivativeOperandsL : List TNode → List TNode
  | [] => []
  | c :: cs => invertYDerivativeOperands c :: invertYDerivativeOperandsL cs

end

mutual

/-- Number of secondary-axis derivative nodes in a subtree. -/
def dpdyCount : TNode → Nat
  | .unary op o _ => (if isDPdyOp op then 1 else 0) + dpdyCount o
  | .aggregate _ cs _ => dpdyCountL cs
  | .binary _ l r _ => dpdyCount l + dpdyCount r
  | _ => 0

/-- Mutual companion of `dpdyCount` over a child sequence. -/
def dpdyCountL : List TNode → Nat
  | [] => 0
  | c :: cs => dpdyCount c + dpdyCountL cs

end

mutual

/-- Number of secondary-axis derivative nodes not nested inside the subtree
of another such derivative (the ones a pre-order traversal that refuses to
descend into derivative nodes reaches). -/
def outermostDpdyCount : TNode → Nat
  | .unary op o _ => if isDPdyOp op then 1 else outermostDpdyCount o
  | .aggregate _ cs _ => outermostDpdyCountL cs
  | .binary _ l r _ => outermostDpdyCount l + outermostDpdyCount r
  | _ => 0

/-- Mutual companion of `outermostDpdyCount` over a child sequence. -/
def outermostDpdyCountL : List TNode → Nat
  | [] => 0
  | c :: cs => outermostDpdyCount c + outermostDpdyCountL cs

end

mutual

/-- Number of synthetic-negation (`EOpNegative`) nodes in a subtree. -/
def negCount : TNode → Nat
  | .unary op o _ => (if op = .negative then 1 else 0) + negCount o
  | .aggregate _ cs _ => negCountL cs
  | .binary _ l r _ => negCount l + negCount r
  | _ => 0

/-- Mutual companion of `negCount` over a child sequence. -/
def negCountL : List TNode → Nat
  | [] => 0
  | c :: cs => negCount c + negCountL cs

end
/-- Pairwise distinctness of a name list, as a computation. -/
def nodupStr : List String → Bool
  | [] => true
  | x :: xs => !(xs.contains x) && nodupStr xs

/-- Is this node a symbol with externally-visible storage (a legitimate
linker-object entry)? -/
def isExtSymbolEntry : TNode → Bool
  | .symbol _ _ ty => ty.qualifier.storage.isExternal
  | _ => false

/-- Name of a symbol entry (empty for non-symbols). -/
def entryName : TNode → String
  | .symbol _ n _ => n
  | _ => ""

mutual

/-- No linker-objects aggregate occurs anywhere in the subtree (the linker
section is the tree's unique linker-tagged region). -/
def noLinkerTag : TNode → Bool
  | .aggregate op cs _ => !(op = Op.linkerObjects) && noLinkerTagL cs
  | .binary _ l r _ => noLinkerTag l && noLinkerTag r
  | .unary _ o _ => noLinkerTag o
  | _ => true

/-- Mutual companion of `noLinkerTag` over a child sequence. -/
def noLinkerTagL : List TNode → Bool
  | [] => true
  | c :: cs => noLinkerTag c && noLinkerTagL cs

end

mutual

/-- Every externally-visible symbol referenced in the subtree has its name
in `names`. -/
def coveredBy (names : List String) : TNode → Bool
  | .symbol _ n ty => !ty.qualifier.storage.isExternal || names.contains n
  | .aggregate _ cs _ => coveredByL names cs
  | .binary _ l r _ => coveredBy names l && coveredBy names r
  | .unary _ o _ => coveredBy names o
  | _ => true

/-- Mutual companion of `coveredBy` over a child sequence. -/
def coveredByL (names : List String) : List TNode → Bool
  | [] => true
  | c :: cs => coveredBy names c && coveredByL names cs

end

/-- The linker-object-section invariant (data model): the tree root's last
child is the linker-objects aggregate; each of its entries is an
externally-visible symbol; entry names are pairwise distinct; the body
holds no second linker-tagged region; and every externally-visible symbol
referenced in the body has a linker entry of its name. -/
def linkerInvariant : TNode → Bool
  | .aggregate _ cs _ =>
      match cs.getLast? with
      | some (.aggregate .linkerObjects entries _) =>
          entries.all isExtSymbolEntry
          && nodupStr (entries.map entryName)
          && (cs.dropLast).all
              (fun c => noLinkerTag c && coveredBy (entries.map entryName) c)
      | _ => false
  | _ => false

/-- Type of the (first) linker entry of a given name. -/
def entryTypeOf (entries : List TNode) (n : String) : Option TType :=
  (entries.find? (fun e =>
    match e with
    | .symbol _ n' _ => n' == n
    | _ => false)).map nodeType

mutual

/-- Name-type agreement between a subtree and the linker entries: a symbol
sharing its name with a linker entry carries the entry's type.  Symbol
lookups in the passes key on the name alone, so this renders the data
model's premise that same-named symbol instances denote one declared
object. -/
def agreesWith (entries : List TNode) : TNode → Bool
  | .symbol _ n ty =>
      (match entryTypeOf entries n with
       | some ty' => decide (ty = ty')
       | none => true)
  | .aggregate _ cs _ => agreesWithL entries cs
  | .binary _ l r _ => agreesWith entries l && agreesWith entries r
  | .unary _ o _ => agreesWith entries o
  | _ => true

/-- Mutual companion of `agreesWith` over a child sequence. -/
def agreesWithL (entries : List TNode) : List TNode → Bool
  | [] => true
  | c :: cs => agreesWith entries c && agreesWithL entries cs

end

/-- Every symbol in the tree's body agrees (by name) with the linker
entries' types. -/
def bodyAgrees (t : TNode) : Bool :=
  match t with
  | .aggregate _ cs _ => (cs.dropLast).all (agreesWith (linkerEntriesOf t))
  | _ => true

/-- Freshness premise of the packer: no linker entry is already named
`anon@0`, the fixed name of the synthetic struct symbol. -/
def packFresh (t : TNode) : Bool :=
  !((linkerEntriesOf t).map entryName).contains "anon@0"

/-- No null pointer sits in a child slot of this parent node. -/
def pnodeNoNullSlots : PNode → Bool
  | .aggregateP cs => cs.all (fun slot => slot.isSome)
  | .binaryP l r => l.isSome && r.isSome
  | .unaryP o => o.isSome
  | .otherP _ => true

/-- Is this parent node of a kind the replacement engine has a handler
for? -/
def pnodeSupported : PNode → Bool
  | .otherP _ => false
  | _ => true
/-- Binding slots assigned through the generic fallback (names the fixed
table does not map), in assignment order. -/
def genericLocations (b : VaryingBuild) : List Nat :=
  (b.assigned.filter (fun e => (fixedAttribTable e.1).isNone)).map (fun e => e.2.1)

/-- Number of collected candidates the fixed table does not map. -/
def unmappedCount (collected : List (String × TType)) : Nat :=
  (collected.filter (fun e => (fixedAttribTable e.1).isNone)).length

/-- Example type: a scalar `float` uniform. -/
def exUniformFloat : TType := { basic := .float, qualifier := { storage := .uniform } }

/-- Example type: a combined-sampler uniform. -/
def exCombinedSampler : TType :=
  { basic := .sampler, qualifier := { storage := .uniform },
    sampler := { combined := true } }

/-- Example type: a `vec2` stage input. -/
def exVaryingVec2 : TType :=
  { basic := .float, vecSize := 2, qualifier := { storage := .varyingIn } }

/-- Example type: a `vec2 float` uniform array of length 4. -/
def exArrayUniform : TType :=
  { basic := .float, vecSize := 2, arraySizes := some [4],
    qualifier := { storage := .uniform } }

/-- Example linker section declaring uniform `b` before uniform `a`
(traversal discovers `b` first). -/
def exEntriesBA : List TNode :=
  [.symbol 1 "b" exUniformFloat, .symbol 2 "a" exUniformFloat]

/-- Example struct member list with two distinctly named fields. -/
def exMembers : List FieldType := [{ fieldName := "a" }, { fieldName := "b" }]

/-- Example collected varying map containing one uv-named candidate. -/
def exUvCollected : List (String × TType) := [("uv", exVaryingVec2)]

/-- Example fragment expression: a derivative nested inside the operand of
another derivative. -/
def exNestedDpdy : TNode :=
  .unary .dPdy (.unary .dPdy (.symbol 9 "x" {}) {}) {}

/-- Example fragment expression: a single, unnested derivative. -/
def exSingleDpdy : TNode := .unary .dPdy (.symbol 9 "x" {}) {}

/-- Example tree whose linker section declares combined sampler `s` next to
an unrelated uniform already named `sTexture` (a legal shader declaration
set). -/
def exSamplerCollisionTree : TNode :=
  .aggregate .sequence
    [.aggregate .linkerObjects
      [.symbol 1 "s" exCombinedSampler, .symbol 2 "sTexture" exUniformFloat] {}] {}

/-- Example well-formed tree: uniforms `u` and `s` and varying `position`,
each used once in the body. -/
def exGoodTree : TNode :=
  .aggregate .sequence
    [.aggregate .sequence
      [.binary (.other 0) (.symbol 10 "u" exUniformFloat)
        (.symbol 11 "position" exVaryingVec2) {},
       .unary (.other 1) (.symbol 12 "s" exCombinedSampler) {}] {},
     .aggregate .linkerObjects
      [.symbol 1 "u" exUniformFloat,
       .symbol 2 "s" exCombinedSampler,
       .symbol 3 "position" exVaryingVec2] {}] {}

/-- The promoter's output on `exGoodTree`. -/
def exGoodPromoted : TNode := (changeUniformTypes exGoodTree).toOption.getD .null
theorem replaceInParent_error {repl sym : Ptr} {p : PNode} {e : PassErr}
    (h : replaceInParent repl sym p = .error e) :
    e = .unsupportedReplacementTarget := by
  cases p with
  | aggregateP cs => simp [replaceInParent] at h
  | binaryP l r =>
      by_cases hl : l = sym <;> simp [replaceInParent, hl] at h
  | unaryP o => simp [replaceInParent] at h
  | otherP k =>
      simp [replaceInParent] at h
      exact h.symm

theorem replaceInParent_supported {repl sym : Ptr} {p : PNode}
    (h : pnodeSupported p = true) :
    ∃ q, replaceInParent repl sym p = .ok q := by
  cases p with
  | aggregateP cs => exact ⟨_, rfl⟩
  | binaryP l r =>
      by_cases hl : l = sym
      · exact ⟨.binaryP repl r, by simp [replaceInParent, hl]⟩
      · exact ⟨.binaryP l repl, by simp [replaceInParent, hl]⟩
  | unaryP o => exact ⟨_, rfl⟩
  | otherP k => simp [pnodeSupported] at h

/-- C4 (counterexample): contrary to the claim, the old symbol is not
identity-compared against the right child: on a record whose symbol
(pointer 3) is neither child of the binary parent, `makeReplacements`' body
releases and overwrites the right child (pointer 2) with the replacement
anyway, instead of leaving the unmatched children in place. -/
theorem c4_counterexample :
    replaceInParent (some 9) (some 3) (.binaryP (some 1) (some 2)) =
      .ok (.binaryP (some 1) (some 9))
    ∧ (PNode.binaryP (some 1) (some 9) ≠ PNode.binaryP (some 1) (some 2)) :=
  ⟨rfl, by decide⟩

/-- C4 (amended): when `Replace` is applied to a binary-parent record, only
the left child is identity-compared; if it matches it is released and
overwritten, otherwise the right child is released and overwritten without
a comparison.  Consequently, whenever the record's symbol is one of the two
children, exactly the matching child is overwritten, the left being
preferred. -/
theorem c4_amended (repl sym l r : Ptr) (h : l = sym ∨ r = sym) :
    (l = sym ∧ replaceInParent repl sym (.binaryP l r) = .ok (.binaryP repl r))
    ∨ (l ≠ sym ∧ r = sym ∧
        replaceInParent repl sym (.binaryP l r) = .ok (.binaryP l repl)) := by
  by_cases hl : l = sym
  · exact Or.inl ⟨hl, by simp [replaceInParent, hl]⟩
  · rcases h with h | h
    · exact absurd h hl
    · exact Or.inr ⟨hl, h, by simp [replaceInParent, hl]⟩

/-- C4 (witness): the amended statement at a concrete record whose symbol
is the left child. -/
theorem c4_witness :
    ((some 1 : Ptr) = some 1 ∨ (some 2 : Ptr) = some 1)
    ∧ (((some 1 : Ptr) = some 1 ∧
          replaceInParent (some 9) (some 1) (.binaryP (some 1) (some 2)) =
            .ok (.binaryP (some 9) (some 2)))
       ∨ (¬(some 1 : Ptr) = some 1 ∧ (some 2 : Ptr) = some 1 ∧
          replaceInParent (some 9) (some 1) (.binaryP (some 1) (some 2)) =
            .ok (.binaryP (some 1) (some 9)))) :=
  ⟨Or.inl rfl, c4_amended (some 9) (some 1) (some 1) (some 2) (Or.inl rfl)⟩
/-- C9: a use-site record whose parent is of an unhandled kind makes the
batch replacement engine fail with the unsupported-replacement-target error
(never a silent skip); the Uniform Vector Promoter's shape-conversion
insertion helper fails the same way on an unhandled parent kind. -/
theorem c9_unsupported_target_raises :
    (∀ (m : List (String × Ptr)) (records : List UseSite) (r : UseSite),
        r ∈ records → pnodeSupported r.parent = false →
        makeReplacements m records = .error .unsupportedReplacementTarget)
    ∧ (∀ (node conv : Ptr) (k : Nat),
        injectShapeConversionAt node (.otherP k) conv =
          .error .unsupportedReplacementTarget) := by
  constructor
  · intro m records
    induction records with
    | nil => intro r hr; cases hr
    | cons a rest ih =>
        intro r hr hp
        rcases List.mem_cons.mp hr with h | h
        · subst h
          have : r.parent = PNode.otherP (match r.parent with
            | .otherP k => k | _ => 0) := by
            cases hpp : r.parent <;> simp [hpp, pnodeSupported] at hp ⊢
          rw [makeReplacements, this]
          rfl
        · rcases hre : replaceInParent (mapIndex m a.symName) a.symPtr a.parent with e | p
          · rw [makeReplacements, hre, replaceInParent_error hre]
            rfl
          · rw [makeReplacements, hre]
            have := ih r h hp
            rw [this]
            rfl
  · intro node conv k
    rfl
/-- C9 (witness): the failure at a concrete unsupported-parent record, for
both the batch engine and the conversion-insertion helper. -/
theorem c9_witness :
    makeReplacements [] [⟨"x", some 1, .otherP 0⟩] =
      .error .unsupportedReplacementTarget
    ∧ injectShapeConversionAt (some 1) (.otherP 0) (some 2) =
      .error .unsupportedReplacementTarget :=
  ⟨c9_unsupported_target_raises.1 [] [⟨"x", some 1, .otherP 0⟩]
      ⟨"x", some 1, .otherP 0⟩ (List.Mem.head _) rfl,
    c9_unsupported_target_raises.2 (some 1) (some 2) 0⟩

theorem replaceInParent_noNull {repl sym : Ptr} {p q : PNode}
    (h : replaceInParent repl sym p = .ok q)
    (hp : pnodeNoNullSlots p = true) (hr : repl.isSome = true) :
    pnodeNoNullSlots q = true := by
  cases p with
  | aggregateP cs =>
      simp only [replaceInParent, Except.ok.injEq] at h
      subst h
      simp only [pnodeNoNullSlots, List.all_eq_true] at hp ⊢
      intro slot hslot
      rcases List.mem_map.mp hslot with ⟨s, hs, hss⟩
      by_cases hsym : s = sym
      · simp [hsym] at hss
        exact hss ▸ hr
      · simp [hsym] at hss
        exact hss ▸ hp s hs
  | binaryP l r =>
      by_cases hl : l = sym <;>
        simp only [replaceInParent, hl, if_true, if_false, Except.ok.injEq] at h <;>
        subst h <;>
        simp only [pnodeNoNullSlots, Bool.and_eq_true] at hp ⊢
      · exact ⟨hr, hp.2⟩
      · exact ⟨hp.1, hr⟩
  | unaryP o =>
      simp only [replaceInParent, Except.ok.injEq] at h
      subst h
      simpa [pnodeNoNullSlots] using hr
  | otherP k => simp [replaceInParent] at h

/-- C10: batch replacement does not fail when a record's name has no map
entry — the `operator[]` lookup default-constructs a null replacement and
installs it into the parent's slot; and when every recorded name does have
a (non-null) mapped replacement, parents whose slots were non-null stay
non-null — the operation produces a well-formed tree only under that
precondition. -/
theorem c10_missing_name_installs_null :
    (∀ (m : List (String × Ptr)) (records : List UseSite),
        (∀ r ∈ records, pnodeSupported r.parent = true) →
        ∃ out, makeReplacements m records = .ok out)
    ∧ (∀ (m : List (String × Ptr)) (name : String) (sp o : Ptr),
        (∀ e ∈ m, e.1 ≠ name) →
        makeReplacements m [⟨name, sp, .unaryP o⟩] = .ok [.unaryP none])
    ∧ (∀ (m : List (String × Ptr)) (records : List UseSite) (out : List PNode),
        makeReplacements m records = .ok out →
        (∀ r ∈ records, pnodeNoNullSlots r.parent = true) →
        (∀ r ∈ records, (mapIndex m r.symName).isSome = true) →
        ∀ p ∈ out, pnodeNoNullSlots p = true) := by
  refine ⟨?_, ?_, ?_⟩
  · intro m records
    induction records with
    | nil => exact fun _ => ⟨[], rfl⟩
    | cons a rest ih =>
        intro h
        rcases @replaceInParent_supported (mapIndex m a.symName)
          a.symPtr _ (h a (List.Mem.head _)) with ⟨q, hq⟩
        rcases ih (fun r hr => h r (List.Mem.tail _ hr)) with ⟨out, hout⟩
        refine ⟨q :: out, ?_⟩
        rw [makeReplacements, hq, hout]
        rfl
  · intro m name sp o hm
    have hmi : mapIndex m name = none := by
      unfold mapIndex
      rw [List.find?_eq_none.mpr]
      intro e he
      simpa using hm e he
    rw [makeReplacements]
    show (do
      let p ← replaceInParent (mapIndex m name) sp (.unaryP o)
      let ps ← makeReplacements m []
      .ok (p :: ps)) = _
    rw [hmi]
    rfl
  · intro m records
    induction records with
    | nil =>
        intro out hout _ _
        rw [makeReplacements] at hout
        cases hout
        intro p hp
        cases hp
    | cons a rest ih =>
        intro out hout hnn hsome
        rw [makeReplacements] at hout
        rcases hq : replaceInParent (mapIndex m a.symName) a.symPtr a.parent with e | q
        · rw [hq] at hout; cases hout
        · rw [hq] at hout
          rcases hrest : makeReplacements m rest with e | out'
          · rw [hrest] at hout; cases hout
          · rw [hrest] at hout
            cases hout
            intro p hp
            rcases List.mem_cons.mp hp with h | h
            · subst h
              exact replaceInParent_noNull hq (hnn a (List.Mem.head _))
                (hsome a (List.Mem.head _))
            · exact ih out' hrest (fun r hr => hnn r (List.Mem.tail _ hr))
                (fun r hr => hsome r (List.Mem.tail _ hr)) p h

/-- C10 (witness): at a concrete record set — a supported parent with a
missing name succeeds and installs the null slot; with the name present
and a non-null replacement, slots stay non-null. -/
theorem c10_witness :
    makeReplacements [("y", some 7)] [⟨"x", some 1, .unaryP (some 1)⟩] =
      .ok [.unaryP none]
    ∧ pnodeNoNullSlots (PNode.unaryP none) = false := by
  constructor
  · exact c10_missing_name_installs_null.2.1 [("y", some 7)] "x" (some 1) (some 1)
      (by intro e he; simp at he; simp [he])
  · rfl
/-- C2: for a uniform-or-buffer, non-sampler, non-matrix, array-typed
symbol at a use site whose parent is an index (binary) operation, the
promoter retypes the index operation itself to the promoted element type —
`float`, 4-vector, array dimensions cleared, qualifier preserved — and the
compensating shape conversion (targeting the index operation's original
type) is inserted between the index operation and its own parent: the
grandparent's slot holds `conversion(indexOp)`, and no conversion sits
between the array symbol and the index operation. -/
theorem c2_array_index_promotion (bop : Op) (sid : Nat) (nm : String)
    (ty : TType) (sib sib' : TNode) (bty : TType)
    (hc : isPromoteCandidate ty = true) (ha : ty.isArray = true)
    (hsib : isPromoteArraySym sib = false)
    (hs : promoteSlot sib = .ok sib') :
    promoteSlot (.binary bop (.symbol sid nm ty) sib bty) =
      .ok (.unary .shapeConversion
        (.binary bop (.symbol sid nm (promoteType ty)) sib'
          (clearArraySizes (promoteType ty))) bty)
    ∧ (clearArraySizes (promoteType ty)).basic = .float
    ∧ (clearArraySizes (promoteType ty)).vecSize = 4
    ∧ (clearArraySizes (promoteType ty)).arraySizes = none
    ∧ (clearArraySizes (promoteType ty)).qualifier = ty.qualifier := by
  have h1 : isPromoteArraySym (.symbol sid nm ty) = true := by
    simp [isPromoteArraySym, hc, ha]
  refine ⟨?_, rfl, rfl, rfl, rfl⟩
  rw [promoteSlot, h1, hsib]
  simp only [if_true, Bool.false_eq_true, if_false, hs, retypePromote, nodeType,
    addShapeConversion]
  rfl
/-- C2 (witness): the array-indexing promotion at a concrete indexed
`vec2 float[4]` uniform. -/
theorem c2_witness :
    isPromoteCandidate exArrayUniform = true
    ∧ promoteSlot (.binary .indexDirect (.symbol 5 "arr" exArrayUniform)
        (.constUnion 0 uintConstType) { basic := .float, vecSize := 2 }) =
      .ok (.unary .shapeConversion
        (.binary .indexDirect (.symbol 5 "arr" (promoteType exArrayUniform))
          (.constUnion 0 uintConstType)
          (clearArraySizes (promoteType exArrayUniform)))
        { basic := .float, vecSize := 2 }) :=
  ⟨by decide,
    (c2_array_index_promotion .indexDirect 5 "arr" exArrayUniform
      (.constUnion 0 uintConstType) (.constUnion 0 uintConstType)
      { basic := .float, vecSize := 2 }
      (by decide) (by decide) (by decide) rfl).1⟩
theorem containsStr_iff (a : String) (l : List String) :
    l.contains a = true ↔ a ∈ l := by
  induction l with
  | nil => simp
  | cons x xs ih =>
      simp [List.contains_cons, ih]

theorem mapFind?_cons (k : String) (v : α) (m : List (String × α)) (n : String) :
    mapFind? ((k, v) :: m) n = if k = n then some v else mapFind? m n := by
  by_cases h : k = n <;> simp [mapFind?, List.find?_cons, h]

theorem packReplacements_find (structSym : TNode) :
    (members : List FieldType) → (start i : Nat) → (h : i < members.length) →
    nodupStr (members.map (fun f => f.fieldName)) = true →
    mapFind? (packReplacements structSym start members)
      ((members.get ⟨i, h⟩).fieldName) =
      some (.binary .indexDirectStruct structSym
        (.constUnion (start + i) uintConstType)
        (members.get ⟨i, h⟩).toTType)
  | [], _, i, h, _ => absurd h (Nat.not_lt_zero i)
  | mem :: rest, start, 0, h, hnd => by
      simp [packReplacements, mapFind?_cons]
  | mem :: rest, start, j + 1, h, hnd => by
      simp only [List.map_cons, nodupStr, Bool.and_eq_true, Bool.not_eq_true'] at hnd
      have hj : j < rest.length := Nat.lt_of_succ_lt_succ h
      have hmem : (rest.get ⟨j, hj⟩).fieldName ∈ rest.map (fun f => f.fieldName) :=
        List.mem_map.mpr ⟨rest.get ⟨j, hj⟩, List.get_mem rest j hj, rfl⟩
      have hne : mem.fieldName ≠ (rest.get ⟨j, hj⟩).fieldName := by
        intro hcontra
        have := (containsStr_iff _ _).mpr (hcontra ▸ hmem)
        rw [hnd.1] at this
        cases this
      have hgets : ((mem :: rest).get ⟨j + 1, h⟩) = rest.get ⟨j, hj⟩ := rfl
      rw [hgets, packReplacements, mapFind?_cons, if_neg hne,
        packReplacements_find structSym rest (start + 1) j hj hnd.2]
      have harith : start + 1 + j = start + (j + 1) := by omega
      rw [harith]

/-- C5: for every field of the synthetic struct, the replacement looked up
(and substituted) at a use site of that field's name is the binary
index-direct-into-struct node whose left operand is the struct symbol,
whose right operand is a constant literal equal to the field's position in
the declared member list, and whose type is the field's type. -/
theorem c5_struct_field_access (structSym : TNode) (members : List FieldType)
    (i : Nat) (h : i < members.length)
    (hnd : nodupStr (members.map (fun f => f.fieldName)) = true)
    (sid : Nat) (sty : TType) (hcand : isPackCandidate sty = true) :
    mapFind? (packReplacements structSym 0 members)
      ((members.get ⟨i, h⟩).fieldName) =
      some (.binary .indexDirectStruct structSym (.constUnion i uintConstType)
        (members.get ⟨i, h⟩).toTType)
    ∧ substCand isPackCandidate (packReplacements structSym 0 members)
        (.symbol sid ((members.get ⟨i, h⟩).fieldName) sty) =
      .binary .indexDirectStruct structSym (.constUnion i uintConstType)
        (members.get ⟨i, h⟩).toTType := by
  have h0 := packReplacements_find structSym members 0 i h hnd
  rw [Nat.zero_add] at h0
  refine ⟨h0, ?_⟩
  have h1 := h0
  simp only [List.get_eq_getElem] at h1
  rw [substCand, hcand]
  simp [h1]

/-- C5 (witness): both field accesses of a concrete two-member struct. -/
theorem c5_witness :
    nodupStr (exMembers.map (fun f => f.fieldName)) = true
    ∧ substCand isPackCandidate
        (packReplacements (.symbol 0 "anon@0" (packStructType exMembers)) 0 exMembers)
        (.symbol 7 "b" exUniformFloat) =
      .binary .indexDirectStruct (.symbol 0 "anon@0" (packStructType exMembers))
        (.constUnion 1 uintConstType) (exMembers.get ⟨1, by decide⟩).toTType :=
  ⟨by decide,
    (c5_struct_field_access (.symbol 0 "anon@0" (packStructType exMembers))
      exMembers 1 (by decide) (by decide) 7 exUniformFloat (by decide)).2⟩
theorem splitBuild_get :
    (collected : List (String × TType)) → (nid b i : Nat) →
    (h : i < (splitBuild nid b collected).length) →
    ((splitBuild nid b collected).get ⟨i, h⟩).texture =
        splitTexture (b + i) (nid + 2 * i)
          ((splitBuild nid b collected).get ⟨i, h⟩).origName
          ((splitBuild nid b collected).get ⟨i, h⟩).origTy
    ∧ ((splitBuild nid b collected).get ⟨i, h⟩).samplerSym =
        splitSampler (b + i) (nid + 2 * i + 1)
          ((splitBuild nid b collected).get ⟨i, h⟩).origName
          ((splitBuild nid b collected).get ⟨i, h⟩).origTy
    ∧ ((splitBuild nid b collected).get ⟨i, h⟩).recon =
        splitRecon ((splitBuild nid b collected).get ⟨i, h⟩).texture
          ((splitBuild nid b collected).get ⟨i, h⟩).samplerSym
          ((splitBuild nid b collected).get ⟨i, h⟩).origTy
  | [], nid, b, i, h => by simp [splitBuild] at h
  | (name, ty) :: rest, nid, b, 0, h => by
      simp [splitBuild]
  | (name, ty) :: rest, nid, b, i + 1, h => by
      have h2 : i < (splitBuild (nid + 2) (b + 1) rest).length := by
        have := h
        simp only [splitBuild, List.length_cons] at this
        exact Nat.lt_of_succ_lt_succ this
      have hget : (splitBuild nid b ((name, ty) :: rest)).get ⟨i + 1, h⟩ =
          (splitBuild (nid + 2) (b + 1) rest).get ⟨i, h2⟩ := rfl
      have hrec := splitBuild_get rest (nid + 2) (b + 1) i h2
      rw [hget]
      have e1 : b + 1 + i = b + (i + 1) := by omega
      have e2 : nid + 2 + 2 * i = nid + 2 * (i + 1) := by omega
      rw [e1, e2] at hrec
      exact hrec

/-- C6: the texture and sampler symbols synthesized for the i-th
combined-sampler candidate carry the same binding slot `i` (the slot
counter advances exactly once per candidate), and the reconstruction
aggregate substituted at use sites is the construct-combined-sampler node
over the pair, typed as a combined sampler matching the original symbol's
sampler type. -/
theorem c6_splitter_pairing (nid : Nat) (collected : List (String × TType))
    (i : Nat) (h : i < (splitBuild nid 0 collected).length)
    (e : SplitEntry) (he : e = (splitBuild nid 0 collected).get ⟨i, h⟩)
    (hcomb : e.origTy.sampler.combined = true) :
    (nodeType e.texture).qualifier.layoutBinding = some i
    ∧ (nodeType e.samplerSym).qualifier.layoutBinding = some i
    ∧ e.recon = .aggregate .constructTextureSampler [e.texture, e.samplerSym]
        { basic := e.origTy.basic, qualifier := { storage := .temporary },
          sampler := e.origTy.sampler }
    ∧ (nodeType e.recon).sampler = e.origTy.sampler
    ∧ (nodeType e.recon).basic = e.origTy.basic := by
  obtain ⟨ht, hsy, hr⟩ := splitBuild_get collected nid 0 i h
  rw [← he] at ht hsy hr
  have hsamp : { e.origTy.sampler with combined := true } = e.origTy.sampler := by
    rcases hx : e.origTy.sampler with ⟨c, p⟩
    rw [hx] at hcomb
    simp at hcomb
    simp [hcomb]
  refine ⟨?_, ?_, ?_, ?_, ?_⟩
  · rw [ht]; simp [splitTexture, nodeType]
  · rw [hsy]; simp [splitSampler, nodeType]
  · rw [hr]; simp [splitRecon, hsamp]
  · rw [hr]; simp [splitRecon, nodeType, hsamp]
  · rw [hr]; simp [splitRecon, nodeType]

/-- C6 (witness): the pairing at a concrete single-candidate run. -/
theorem c6_witness :
    ((splitBuild 40 0 [("s", exCombinedSampler)]).get ⟨0, by decide⟩).origTy.sampler.combined = true
    ∧ (nodeType ((splitBuild 40 0 [("s", exCombinedSampler)]).get ⟨0, by decide⟩).texture).qualifier.layoutBinding = some 0
    ∧ (nodeType ((splitBuild 40 0 [("s", exCombinedSampler)]).get ⟨0, by decide⟩).recon).sampler =
        ((splitBuild 40 0 [("s", exCombinedSampler)]).get ⟨0, by decide⟩).origTy.sampler := by
  have h := c6_splitter_pairing 40 [("s", exCombinedSampler)] 0 (by decide)
    ((splitBuild 40 0 [("s", exCombinedSampler)]).get ⟨0, by decide⟩) rfl (by decide)
  exact ⟨by decide, h.1, h.2.2.2.1⟩
theorem isDPdyOp_ne_negative {op : Op} (h : isDPdyOp op = true) :
    op ≠ Op.negative := by
  cases op <;> simp [isDPdyOp] at h ⊢

mutual

theorem dpdyCount_invert (t : TNode) :
    dpdyCount (invertYDerivativeOperands t) = dpdyCount t := by
  match t with
  | .symbol i n ty => rfl
  | .constUnion v ty => rfl
  | .null => rfl
  | .aggregate op cs ty =>
      simp only [invertYDerivativeOperands, dpdyCount]
      exact dpdyCountL_invert cs
  | .binary op l r ty =>
      simp only [invertYDerivativeOperands, dpdyCount]
      rw [dpdyCount_invert l, dpdyCount_invert r]
  | .unary op o ty =>
      by_cases h : isDPdyOp op = true
      · have hn : isDPdyOp Op.negative = false := rfl
        simp only [invertYDerivativeOperands, h, if_true, dpdyCount, hn,
          Bool.false_eq_true, if_false]
        omega
      · simp only [Bool.not_eq_true] at h
        simp only [invertYDerivativeOperands, h, Bool.false_eq_true, if_false, dpdyCount]
        rw [dpdyCount_invert o]

theorem dpdyCountL_invert (l : List TNode) :
    dpdyCountL (invertYDerivativeOperandsL l) = dpdyCountL l := by
  match l with
  | [] => rfl
  | c :: cs =>
      simp only [invertYDerivativeOperandsL, dpdyCountL]
      rw [dpdyCount_invert c, dpdyCountL_invert cs]

end

mutual

theorem negCount_invert (t : TNode) :
    negCount (invertYDerivativeOperands t) = negCount t + outermostDpdyCount t := by
  match t with
  | .symbol i n ty => rfl
  | .constUnion v ty => rfl
  | .null => rfl
  | .aggregate op cs ty =>
      simp only [invertYDerivativeOperands, negCount, outermostDpdyCount]
      exact negCountL_invert cs
  | .binary op l r ty =>
      simp only [invertYDerivativeOperands, negCount, outermostDpdyCount]
      rw [negCount_invert l, negCount_invert r]
      omega
  | .unary op o ty =>
      by_cases h : isDPdyOp op = true
      · have hne : ¬(op = Op.negative) := isDPdyOp_ne_negative h
        simp only [invertYDerivativeOperands, h, if_true, negCount,
          outermostDpdyCount, hne, if_false, if_pos rfl]
        omega
      · simp only [Bool.not_eq_true] at h
        simp only [invertYDerivativeOperands, h, Bool.false_eq_true, if_false,
          negCount, outermostDpdyCount]
        rw [negCount_invert o]
        omega

theorem negCountL_invert (l : List TNode) :
    negCountL (invertYDerivativeOperandsL l) = negCountL l + outermostDpdyCountL l := by
  match l with
  | [] => rfl
  | c :: cs =>
      simp only [invertYDerivativeOperandsL, negCountL, outermostDpdyCountL]
      rw [negCount_invert c, negCountL_invert cs]
      omega

end

/-- C7 (counterexample): on `dPdy(dPdy(x))` one inverter run adds a single
negation (around the outer operand) — not one per original derivative node:
the derivative nested inside the outer operand is skipped entirely, so the
claimed count `negCount + dpdyCount` (one wrapper for each of the two
derivative nodes) is wrong. -/
theorem c7_counterexample :
    negCount (invertYDerivativeOperands exNestedDpdy) = 1
    ∧ dpdyCount exNestedDpdy = 2
    ∧ ¬(negCount (invertYDerivativeOperands exNestedDpdy) =
        negCount exNestedDpdy + dpdyCount exNestedDpdy) := by
  refine ⟨rfl, rfl, ?_⟩
  decide

/-- C7 (amended): one inverter run wraps in exactly one synthetic negation
the operand of every secondary-axis derivative that is not nested inside
the operand of another such derivative, and it never descends into the
modified subtree: the negation count grows by exactly the number of
outermost derivative nodes (never two per node), the derivative nodes
themselves are preserved, and when no derivative is nested inside another
the growth is exactly one negation per original derivative node. -/
theorem c7_amended (t : TNode) :
    negCount (invertYDerivativeOperands t) = negCount t + outermostDpdyCount t
    ∧ dpdyCount (invertYDerivativeOperands t) = dpdyCount t
    ∧ (outermostDpdyCount t = dpdyCount t →
        negCount (invertYDerivativeOperands t) = negCount t + dpdyCount t) :=
  ⟨negCount_invert t, dpdyCount_invert t,
    fun h => by rw [negCount_invert t, h]⟩

/-- C7 (witness): the amended statement at a concrete unnested
derivative. -/
theorem c7_witness :
    outermostDpdyCount exSingleDpdy = dpdyCount exSingleDpdy
    ∧ negCount (invertYDerivativeOperands exSingleDpdy) =
        negCount exSingleDpdy + dpdyCount exSingleDpdy :=
  ⟨by decide, (c7_amended exSingleDpdy).2.2 (by decide)⟩
theorem varyingStep_apple_assigned (st : VaryingBuild) (name : String) (ty : TType) :
    (varyingStep true st name ty).assigned =
      st.assigned ++ [(name, st.count, s_attribName.getD st.count "a_position")]
    ∧ (varyingStep true st name ty).count = st.count + 1 :=
  ⟨rfl, rfl⟩

theorem varyingFold_apple_locations (collected : List (String × TType)) :
    ∀ st : VaryingBuild,
    assignedLocations (collected.foldl (fun s e => varyingStep true s e.1 e.2) st) =
      assignedLocations st ++ List.range' st.count collected.length := by
  induction collected with
  | nil => intro st; simp [List.range']
  | cons e rest ih =>
      intro st
      rw [List.foldl_cons, ih]
      have h1 : assignedLocations (varyingStep true st e.1 e.2) =
          assignedLocations st ++ [st.count] := by
        simp [assignedLocations, varyingStep, getVaryingLocationAndNewName]
      have h2 : (varyingStep true st e.1 e.2).count = st.count + 1 := rfl
      rw [h1, h2, List.length_cons, List.range'_succ, List.append_assoc]
      rfl

theorem varyingFold_generic_locations (collected : List (String × TType)) :
    ∀ st : VaryingBuild,
    genericLocations (collected.foldl (fun s e => varyingStep false s e.1 e.2) st) =
      genericLocations st ++
        List.range' (FIRST_GENERIC_ATTRIBUTE_LOCATION + st.count)
          (unmappedCount collected)
    ∧ (collected.foldl (fun s e => varyingStep false s e.1 e.2) st).count =
        st.count + unmappedCount collected := by
  induction collected with
  | nil => intro st; simp [unmappedCount, List.range']
  | cons e rest ih =>
      intro st
      rw [List.foldl_cons]
      rcases htab : fixedAttribTable e.1 with _ | ⟨loc, newName⟩
      · have h1 : genericLocations (varyingStep false st e.1 e.2) =
            genericLocations st ++ [FIRST_GENERIC_ATTRIBUTE_LOCATION + st.count] := by
          simp [genericLocations, varyingStep, getVaryingLocationAndNewName, htab]
        have h2 : (varyingStep false st e.1 e.2).count = st.count + 1 := by
          simp [varyingStep, getVaryingLocationAndNewName, htab]
        have hcnt : unmappedCount (e :: rest) = unmappedCount rest + 1 := by
          simp [unmappedCount, htab]
        obtain ⟨ih1, ih2⟩ := ih (varyingStep false st e.1 e.2)
        constructor
        · rw [ih1, h1, h2, hcnt, List.append_assoc, List.range'_succ]
          rfl
        · rw [ih2, h2, hcnt]
          omega
      · have h1 : genericLocations (varyingStep false st e.1 e.2) =
            genericLocations st := by
          simp [genericLocations, varyingStep, getVaryingLocationAndNewName, htab]
        have h2 : (varyingStep false st e.1 e.2).count = st.count := by
          simp [varyingStep, getVaryingLocationAndNewName, htab]
        have hcnt : unmappedCount (e :: rest) = unmappedCount rest := by
          simp [unmappedCount, htab]
        obtain ⟨ih1, ih2⟩ := ih (varyingStep false st e.1 e.2)
        exact ⟨by rw [ih1, h1, h2, hcnt], by rw [ih2, h2, hcnt]⟩

/-- C8 (counterexample): in the capacity-constrained (Apple/OpenGL) build,
a collected candidate set containing the uv-named varying is not
pre-scanned: the first assigned slot is 0, not the claimed
uv-reserving offset 1. -/
theorem c8_counterexample :
    uvPrescanCount exUvCollected = 1
    ∧ assignedLocations (varyingBuildAll true 7 exUvCollected) = [0]
    ∧ ¬(assignedLocations (varyingBuildAll true 7 exUvCollected) =
        List.range' (uvPrescanCount exUvCollected) exUvCollected.length) := by
  refine ⟨rfl, rfl, ?_⟩
  decide

/-- C8 (amended): the uv pre-scan lives in the fixed-table (non-Apple)
build, not the capacity-constrained one.  The capacity-constrained variant
assigns slots 0, 1, 2, … in encounter order with no pre-scan; the
fixed-table variant pre-scans the uv-named candidates once each before any
assignment, so its generic fallback slots start at
`FIRST_GENERIC_ATTRIBUTE_LOCATION + (number of uv-named candidates)` and
cannot collide with the texture-coordinate slots the uv names map to. -/
theorem c8_amended (nid : Nat) (collected : List (String × TType)) :
    assignedLocations (varyingBuildAll true nid collected) =
      List.range' 0 collected.length
    ∧ genericLocations (varyingBuildAll false nid collected) =
        List.range' (FIRST_GENERIC_ATTRIBUTE_LOCATION + uvPrescanCount collected)
          (unmappedCount collected) := by
  constructor
  · rw [varyingBuildAll, varyingFold_apple_locations]
    rfl
  · rw [varyingBuildAll, (varyingFold_generic_locations collected _).1]
    rfl
theorem charLt_irrefl (c : Char) : charLt c c = false := by
  rw [charLt, ← Bool.not_eq_true, Nat.blt_eq]
  exact Nat.lt_irrefl _

theorem charsLt_irrefl : ∀ l : List Char, charsLt l l = false
  | [] => rfl
  | c :: cs => by
      simp only [charsLt, charLt_irrefl c, Bool.false_eq_true, if_false]
      exact charsLt_irrefl cs

theorem stringLt_irrefl (s : String) : stringLt s s = false :=
  charsLt_irrefl s.data

theorem charLt_asymm {c d : Char} (h : charLt c d = true) : charLt d c = false := by
  rw [charLt, Nat.blt_eq] at h
  rw [charLt, ← Bool.not_eq_true, Nat.blt_eq]
  omega

theorem charLt_trans {c d e : Char} (h1 : charLt c d = true)
    (h2 : charLt d e = true) : charLt c e = true := by
  rw [charLt, Nat.blt_eq] at h1 h2 ⊢
  omega

theorem charLt_false_eq {c d : Char} (h1 : charLt c d = false)
    (h2 : charLt d c = false) : c = d := by
  rw [charLt, ← Bool.not_eq_true, Nat.blt_eq] at h1 h2
  have h3 : c.toNat = d.toNat := by omega
  exact Char.eq_of_val_eq (UInt32.ext h3)

theorem charsLt_trans : ∀ {a b c : List Char}, charsLt a b = true →
    charsLt b c = true → charsLt a c = true
  | [], _ :: _, _ :: _, _, _ => rfl
  | x :: xs, y :: ys, z :: zs, h1, h2 => by
      simp only [charsLt] at h1 h2 ⊢
      by_cases hxy : charLt x y = true
      · by_cases hyz : charLt y z = true
        · simp [charLt_trans hxy hyz]
        · simp only [Bool.not_eq_true] at hyz
          rw [hyz] at h2
          simp only [Bool.false_eq_true, if_false] at h2
          by_cases hzy : charLt z y = true
          · rw [hzy] at h2
            simp at h2
          · simp only [Bool.not_eq_true] at hzy
            have hyz2 := charLt_false_eq hyz hzy
            subst hyz2
            simp [hxy]
      · simp only [Bool.not_eq_true] at hxy
        rw [hxy] at h1
        simp only [Bool.false_eq_true, if_false] at h1
        by_cases hyx : charLt y x = true
        · rw [hyx] at h1
          simp at h1
        · simp only [Bool.not_eq_true] at hyx
          have hxy2 := charLt_false_eq hxy hyx
          subst hxy2
          by_cases hxz : charLt x z = true
          · simp [hxz]
          · simp only [Bool.not_eq_true] at hxz
            rw [hxz] at h2 ⊢
            simp only [Bool.false_eq_true, if_false] at h2 ⊢
            by_cases hzx : charLt z x = true
            · rw [hzx] at h2
              simp at h2
            · simp only [Bool.not_eq_true] at hzx
              rw [hzx] at h2 ⊢
              simp only [Bool.false_eq_true, if_false] at h2 ⊢
              rw [hxy] at h1
              simp only [Bool.false_eq_true, if_false] at h1
              exact charsLt_trans h1 h2

theorem stringLt_trans {a b c : String} (h1 : stringLt a b = true)
    (h2 : stringLt b c = true) : stringLt a c = true :=
  charsLt_trans h1 h2

theorem charsLt_connex : ∀ {a b : List Char}, charsLt a b = false →
    a = b ∨ charsLt b a = true
  | [], [], _ => Or.inl rfl
  | [], _ :: _, h => by simp [charsLt] at h
  | _ :: _, [], _ => Or.inr rfl
  | x :: xs, y :: ys, h => by
      simp only [charsLt] at h ⊢
      by_cases hxy : charLt x y = true
      · rw [hxy] at h
        simp at h
      · simp only [Bool.not_eq_true] at hxy
        rw [hxy] at h
        simp only [Bool.false_eq_true, if_false] at h
        by_cases hyx : charLt y x = true
        · exact Or.inr (by simp [hyx])
        · simp only [Bool.not_eq_true] at hyx
          rw [hyx] at h
          simp only [Bool.false_eq_true, if_false] at h
          have hxy2 := charLt_false_eq hxy hyx
          subst hxy2
          rcases charsLt_connex h with h2 | h2
          · exact Or.inl (by rw [h2])
          · refine Or.inr ?_
            rw [charLt_irrefl]
            simpa using h2

theorem stringLt_connex {a b : String} (h : stringLt a b = false) :
    a = b ∨ stringLt b a = true := by
  rcases charsLt_connex h with h2 | h2
  · exact Or.inl (String.ext h2)
  · exact Or.inr h2

theorem stringLt_ne {a b : String} (h : stringLt a b = true) : a ≠ b := by
  intro he
  subst he
  rw [stringLt_irrefl] at h
  cases h
theorem mapInsert_keys_mem (k n : String) (v : α) :
    ∀ m : List (String × α),
    (n ∈ (mapInsert k v m).map (fun e => e.1) ↔
      n = k ∨ n ∈ m.map (fun e => e.1))
  | [] => by simp [mapInsert]
  | (k', v') :: rest => by
      rw [mapInsert]
      by_cases h1 : stringLt k k' = true
      · rw [if_pos h1]
        simp only [List.map_cons, List.mem_cons]
      · rw [if_neg h1]
        by_cases h2 : k = k'
        · rw [if_pos h2]
          subst h2
          simp only [List.map_cons, List.mem_cons]
          tauto
        · rw [if_neg h2]
          simp only [List.map_cons, List.mem_cons, mapInsert_keys_mem k n v rest]
          tauto

theorem mapInsert_keys_pairwise (k : String) (v : α) :
    ∀ m : List (String × α),
    List.Pairwise (fun a b => stringLt a b = true) (m.map (fun e => e.1)) →
    List.Pairwise (fun a b => stringLt a b = true)
      ((mapInsert k v m).map (fun e => e.1))
  | [] => by simp [mapInsert]
  | (k', v') :: rest => by
      intro hp
      rw [List.map_cons, List.pairwise_cons] at hp
      obtain ⟨hk', hrest⟩ := hp
      rw [mapInsert]
      by_cases h1 : stringLt k k' = true
      · rw [if_pos h1]
        simp only [List.map_cons, List.pairwise_cons, List.mem_cons]
        refine ⟨?_, hk', hrest⟩
        rintro x (rfl | hx)
        · exact h1
        · exact stringLt_trans h1 (hk' x hx)
      · rw [if_neg h1]
        by_cases h2 : k = k'
        · rw [if_pos h2]
          subst h2
          simp only [List.map_cons, List.pairwise_cons]
          exact ⟨hk', hrest⟩
        · rw [if_neg h2]
          simp only [Bool.not_eq_true] at h1
          have hk'k : stringLt k' k = true := by
            rcases stringLt_connex h1 with h | h
            · exact absurd h h2
            · exact h
          simp only [List.map_cons, List.pairwise_cons]
          refine ⟨?_, mapInsert_keys_pairwise k v rest hrest⟩
          intro x hx
          rcases (mapInsert_keys_mem k x v rest).mp hx with rfl | hx2
          · exact hk'k
          · exact hk' x hx2

theorem collectFold_keys_mem (cand : TType → Bool) (n : String) :
    ∀ (entries : List TNode) (m : List (String × TType)),
    (n ∈ ((entries.foldl (collectStep cand) m).map (fun e => e.1)) ↔
      n ∈ m.map (fun e => e.1) ∨
        ∃ i ty, TNode.symbol i n ty ∈ entries ∧ cand ty = true)
  | [], m => by simp
  | TNode.symbol i nm ty :: rest, m => by
      rw [List.foldl_cons, collectFold_keys_mem cand n rest]
      by_cases hc : cand ty = true
      · rw [show collectStep cand m (TNode.symbol i nm ty) = mapInsert nm ty m by
          rw [collectStep, if_pos hc]]
        rw [mapInsert_keys_mem nm n ty m]
        constructor
        · rintro ((rfl | h) | ⟨j, ty2, hin, hc2⟩)
          · exact Or.inr ⟨i, ty, List.Mem.head _, hc⟩
          · exact Or.inl h
          · exact Or.inr ⟨j, ty2, List.Mem.tail _ hin, hc2⟩
        · rintro (h | ⟨j, ty2, hin, hc2⟩)
          · exact Or.inl (Or.inr h)
          · rcases List.mem_cons.mp hin with heq | htl
            · rw [TNode.symbol.injEq] at heq
              exact Or.inl (Or.inl heq.2.1)
            · exact Or.inr ⟨j, ty2, htl, hc2⟩
      · rw [show collectStep cand m (TNode.symbol i nm ty) = m by
          rw [collectStep, if_neg hc]]
        constructor
        · rintro (h | ⟨j, ty2, hin, hc2⟩)
          · exact Or.inl h
          · exact Or.inr ⟨j, ty2, List.Mem.tail _ hin, hc2⟩
        · rintro (h | ⟨j, ty2, hin, hc2⟩)
          · exact Or.inl h
          · rcases List.mem_cons.mp hin with heq | htl
            · rw [TNode.symbol.injEq] at heq
              exact absurd (heq.2.2 ▸ hc2) hc
            · exact Or.inr ⟨j, ty2, htl, hc2⟩
  | TNode.constUnion v ty :: rest, m => by
      rw [List.foldl_cons, collectFold_keys_mem cand n rest,
        show collectStep cand m (TNode.constUnion v ty) = m from rfl]
      simp
  | TNode.aggregate op cs ty :: rest, m => by
      rw [List.foldl_cons, collectFold_keys_mem cand n rest,
        show collectStep cand m (TNode.aggregate op cs ty) = m from rfl]
      simp
  | TNode.binary op l r ty :: rest, m => by
      rw [List.foldl_cons, collectFold_keys_mem cand n rest,
        show collectStep cand m (TNode.binary op l r ty) = m from rfl]
      simp
  | TNode.unary op o ty :: rest, m => by
      rw [List.foldl_cons, collectFold_keys_mem cand n rest,
        show collectStep cand m (TNode.unary op o ty) = m from rfl]
      simp
  | TNode.null :: rest, m => by
      rw [List.foldl_cons, collectFold_keys_mem cand n rest,
        show collectStep cand m (TNode.null) = m from rfl]
      simp

theorem collectFold_keys_pairwise (cand : TType → Bool) :
    ∀ (entries : List TNode) (m : List (String × TType)),
    List.Pairwise (fun a b => stringLt a b = true) (m.map (fun e => e.1)) →
    List.Pairwise (fun a b => stringLt a b = true)
      ((entries.foldl (collectStep cand) m).map (fun e => e.1))
  | [], m => fun h => h
  | TNode.symbol i nm ty :: rest, m => by
      intro hp
      rw [List.foldl_cons]
      refine collectFold_keys_pairwise cand rest _ ?_
      by_cases hc : cand ty = true
      · rw [show collectStep cand m (TNode.symbol i nm ty) = mapInsert nm ty m by
          rw [collectStep, if_pos hc]]
        exact mapInsert_keys_pairwise nm ty m hp
      · rw [show collectStep cand m (TNode.symbol i nm ty) = m by
          rw [collectStep, if_neg hc]]
        exact hp
  | TNode.constUnion v ty :: rest, m => by
      intro hp
      rw [List.foldl_cons]
      exact collectFold_keys_pairwise cand rest _ hp
  | TNode.aggregate op cs ty :: rest, m => by
      intro hp
      rw [List.foldl_cons]
      exact collectFold_keys_pairwise cand rest _ hp
  | TNode.binary op l r ty :: rest, m => by
      intro hp
      rw [List.foldl_cons]
      exact collectFold_keys_pairwise cand rest _ hp
  | TNode.unary op o ty :: rest, m => by
      intro hp
      rw [List.foldl_cons]
      exact collectFold_keys_pairwise cand rest _ hp
  | TNode.null :: rest, m => by
      intro hp
      rw [List.foldl_cons]
      exact collectFold_keys_pairwise cand rest _ hp
/-- C3 (counterexample): with uniforms declared (and hence discovered) in
the order `b`, `a`, the synthetic struct's field list is ordered `a`, `b` —
the collected `std::map`'s ascending-name iteration order — not the
insertion order of first discovery that the claim states. -/
theorem c3_counterexample :
    (packStructMembers exEntriesBA).map (fun f => f.fieldName) = ["a", "b"]
    ∧ discoveredNames isPackCandidate exEntriesBA = ["b", "a"]
    ∧ ¬((packStructMembers exEntriesBA).map (fun f => f.fieldName) =
        discoveredNames isPackCandidate exEntriesBA) := by
  refine ⟨by decide, by decide, ?_⟩
  decide

/-- C3 (amended): the synthetic struct has exactly one field per distinct
candidate name — a name is a field name exactly when some linker-object
symbol entry carries it with a packing-candidate type, and field names are
pairwise distinct — but the field order is the ascending `std::string`
order of the names (the iteration order of the collecting `std::map`),
which is deterministic yet independent of discovery order. -/
theorem c3_amended (entries : List TNode) (names : List String)
    (hn : names = (packStructMembers entries).map (fun f => f.fieldName)) :
    List.Pairwise (fun a b => stringLt a b = true) names
    ∧ names.Nodup
    ∧ (∀ n, n ∈ names ↔
        ∃ i ty, TNode.symbol i n ty ∈ entries ∧ isPackCandidate ty = true) := by
  have hkeys : (packStructMembers entries).map (fun f => f.fieldName) =
      (collectLinkerMap isPackCandidate entries).map (fun e => e.1) := by
    rw [packStructMembers, List.map_map]
    rfl
  rw [hn, hkeys]
  have hpw := collectFold_keys_pairwise isPackCandidate entries []
    (by simp)
  rw [collectLinkerMap]
  refine ⟨hpw, hpw.imp (fun h => stringLt_ne h), ?_⟩
  intro n
  rw [collectFold_keys_mem isPackCandidate n entries []]
  simp

/-- C3 (witness): the amended statement at the concrete two-uniform linker
section. -/
theorem c3_witness :
    List.Pairwise (fun a b => stringLt a b = true) ["a", "b"]
    ∧ (["a", "b"] : List String).Nodup
    ∧ ("b" ∈ (["a", "b"] : List String) ↔
        ∃ i ty, TNode.symbol i "b" ty ∈ exEntriesBA ∧ isPackCandidate ty = true) :=
  ⟨(c3_amended exEntriesBA ["a", "b"] (by decide)).1,
   (c3_amended exEntriesBA ["a", "b"] (by decide)).2.1,
   (c3_amended exEntriesBA ["a", "b"] (by decide)).2.2 "b"⟩
theorem nodupStr_iff : ∀ l : List String, nodupStr l = true ↔ l.Nodup
  | [] => by simp [nodupStr]
  | x :: xs => by
      rw [nodupStr, Bool.and_eq_true, nodupStr_iff xs, List.nodup_cons,
        Bool.not_eq_true']
      constructor
      · rintro ⟨h1, h2⟩
        refine ⟨fun hmem => ?_, h2⟩
        rw [(containsStr_iff x xs).mpr hmem] at h1
        cases h1
      · rintro ⟨h1, h2⟩
        refine ⟨?_, h2⟩
        rcases hc : xs.contains x with _ | _
        · rfl
        · exact absurd ((containsStr_iff x xs).mp hc) h1

theorem eq_dropLast_concat : ∀ {l : List α} {x : α}, l.getLast? = some x →
    l = l.dropLast ++ [x]
  | [], x, h => by cases h
  | [a], x, h => by
      simp only [List.getLast?_singleton, Option.some.injEq] at h
      simp [h]
  | a :: b :: t, x, h => by
      rw [List.getLast?_cons_cons] at h
      have := eq_dropLast_concat (l := b :: t) h
      calc a :: b :: t = a :: ((b :: t).dropLast ++ [x]) := by rw [← this]
        _ = (a :: b :: t).dropLast ++ [x] := by simp

theorem linkerInvariant_inv {t : TNode} (h : linkerInvariant t = true) :
    ∃ rop cs rty entries lty,
      t = .aggregate rop cs rty
      ∧ cs.getLast? = some (.aggregate .linkerObjects entries lty)
      ∧ entries.all isExtSymbolEntry = true
      ∧ nodupStr (entries.map entryName) = true
      ∧ (cs.dropLast).all
          (fun c => noLinkerTag c && coveredBy (entries.map entryName) c) = true := by
  cases t
  case aggregate rop cs rty =>
    rw [linkerInvariant] at h
    rcases hlast : cs.getLast? with _ | lastNode
    · rw [hlast] at h; cases h
    · rw [hlast] at h
      cases lastNode
      case aggregate lop entries lty =>
        cases lop
        case linkerObjects =>
          rw [Bool.and_eq_true, Bool.and_eq_true] at h
          exact ⟨rop, cs, rty, entries, lty, rfl, hlast, h.1.1, h.1.2, h.2⟩
        all_goals cases h
      all_goals cases h
  all_goals cases h

theorem linkerInvariant_mk {rop : Op} {cs : List TNode} {rty : TType}
    {entries : List TNode} {lty : TType}
    (hlast : cs.getLast? = some (.aggregate .linkerObjects entries lty))
    (h1 : entries.all isExtSymbolEntry = true)
    (h2 : nodupStr (entries.map entryName) = true)
    (h3 : (cs.dropLast).all
        (fun c => noLinkerTag c && coveredBy (entries.map entryName) c) = true) :
    linkerInvariant (.aggregate rop cs rty) = true := by
  rw [linkerInvariant, hlast]
  rw [Bool.and_eq_true, Bool.and_eq_true]
  exact ⟨⟨h1, h2⟩, h3⟩
theorem mapFind?_isSome (m : List (String × α)) (n : String) :
    ((mapFind? m n).isSome = true) ↔ n ∈ m.map (fun e => e.1) := by
  induction m with
  | nil => simp [mapFind?]
  | cons e rest ih =>
      rcases e with ⟨k, v⟩
      rw [mapFind?_cons]
      by_cases h : k = n
      · simp [h]
      · simp only [h, if_false, List.map_cons, List.mem_cons, ih]
        constructor
        · exact Or.inr
        · rintro (rfl | hm)
          · exact absurd rfl h
          · exact hm

theorem mapFind?_mem_values {m : List (String × α)} {n : String} {v : α}
    (h : mapFind? m n = some v) : (n, v) ∈ m := by
  rw [mapFind?] at h
  rcases hf : m.find? (fun e => e.1 == n) with _ | e
  · rw [hf] at h; cases h
  · rw [hf] at h
    rcases e with ⟨k, w⟩
    have hmem := List.mem_of_find?_eq_some hf
    have hp := List.find?_some hf
    simp only [Option.some.injEq] at h
    simp only [beq_iff_eq] at hp
    rw [← h, ← hp]
    exact hmem

theorem mapFind?_getD_cases {P : TNode → Prop} {m : List (String × TNode)}
    {n : String} (h0 : P TNode.null) (h1 : ∀ e ∈ m, P e.2) :
    P ((mapFind? m n).getD TNode.null) := by
  rcases hf : mapFind? m n with _ | v
  · simpa using h0
  · have hm := mapFind?_mem_values hf
    simpa using h1 _ hm

theorem mapInsert_mem {k : String} {v : α} :
    ∀ {m : List (String × α)} {p : String × α}, p ∈ mapInsert k v m →
      p = (k, v) ∨ p ∈ m
  | [], p, h => by
      rw [mapInsert] at h
      rcases List.mem_singleton.mp h with rfl
      exact Or.inl rfl
  | (k', v') :: rest, p, h => by
      rw [mapInsert] at h
      by_cases h1 : stringLt k k' = true
      · rw [if_pos h1] at h
        rcases List.mem_cons.mp h with rfl | hm
        · exact Or.inl rfl
        · exact Or.inr hm
      · rw [if_neg h1] at h
        by_cases h2 : k = k'
        · rw [if_pos h2] at h
          rcases List.mem_cons.mp h with rfl | hm
          · exact Or.inl rfl
          · exact Or.inr (List.Mem.tail _ hm)
        · rw [if_neg h2] at h
          rcases List.mem_cons.mp h with rfl | hm
          · exact Or.inr (List.Mem.head _)
          · rcases mapInsert_mem hm with rfl | hm2
            · exact Or.inl rfl
            · exact Or.inr (List.Mem.tail _ hm2)

theorem collectFold_values {cand : TType → Bool} :
    ∀ {entries : List TNode} {m : List (String × TType)} {p : String × TType},
      p ∈ entries.foldl (collectStep cand) m →
      p ∈ m ∨ cand p.2 = true
  | [], m, p => fun h => Or.inl h
  | e :: rest, m, p => by
      intro h
      rw [List.foldl_cons] at h
      rcases collectFold_values h with hm | hc
      · cases e with
        | symbol i nm ty =>
            by_cases hc2 : cand ty = true
            · rw [show collectStep cand m (TNode.symbol i nm ty) =
                  mapInsert nm ty m by rw [collectStep, if_pos hc2]] at hm
              rcases mapInsert_mem hm with rfl | hm2
              · exact Or.inr hc2
              · exact Or.inl hm2
            · rw [show collectStep cand m (TNode.symbol i nm ty) = m by
                  rw [collectStep, if_neg hc2]] at hm
              exact Or.inl hm
        | constUnion v ty => exact Or.inl hm
        | aggregate op cs ty => exact Or.inl hm
        | binary op l r ty => exact Or.inl hm
        | unary op o ty => exact Or.inl hm
        | null => exact Or.inl hm
      · exact Or.inr hc

theorem collectLinkerMap_values {cand : TType → Bool} {entries : List TNode}
    {p : String × TType} (h : p ∈ collectLinkerMap cand entries) :
    cand p.2 = true := by
  rw [collectLinkerMap] at h
  rcases collectFold_values h with hm | hc
  · cases hm
  · exact hc

theorem entries_name_unique :
    ∀ {entries : List TNode}, (entries.map entryName).Nodup →
    ∀ {i j : Nat} {n : String} {ty1 ty2 : TType},
    TNode.symbol i n ty1 ∈ entries → TNode.symbol j n ty2 ∈ entries → ty1 = ty2
  | [], _, _, _, _, _, _ => fun h _ => absurd h (List.not_mem_nil _)
  | e :: rest, hnd, i, j, n, ty1, ty2 => by
      intro h1 h2
      rw [List.map_cons, List.nodup_cons] at hnd
      obtain ⟨hhead, hrest⟩ := hnd
      rcases List.mem_cons.mp h1 with rfl | h1t
      · rcases List.mem_cons.mp h2 with heq | h2t
        · rw [TNode.symbol.injEq] at heq
          exact heq.2.2.symm
        · exfalso
          apply hhead
          have : entryName (TNode.symbol i n ty1) = n := rfl
          rw [this]
          exact List.mem_map.mpr ⟨TNode.symbol j n ty2, h2t, rfl⟩
      · rcases List.mem_cons.mp h2 with rfl | h2t
        · exfalso
          apply hhead
          have : entryName (TNode.symbol j n ty2) = n := rfl
          rw [this]
          exact List.mem_map.mpr ⟨TNode.symbol i n ty1, h1t, rfl⟩
        · exact entries_name_unique hrest h1t h2t

theorem entryTypeOf_cons_symbol (i : Nat) (n2 : String) (ty : TType)
    (rest : List TNode) (n : String) :
    entryTypeOf (TNode.symbol i n2 ty :: rest) n =
      if n2 = n then some ty else entryTypeOf rest n := by
  rw [entryTypeOf, entryTypeOf, List.find?_cons]
  by_cases h : n2 = n
  · subst h
    simp [nodeType]
  · have hb : (n2 == n) = false := beq_eq_false_iff_ne.mpr h
    simp [h, hb]

theorem entryTypeOf_cons_nonsym {e : TNode} (rest : List TNode) (n : String)
    (he : ∀ (i : Nat) (n2 : String) (ty : TType), e ≠ TNode.symbol i n2 ty) :
    entryTypeOf (e :: rest) n = entryTypeOf rest n := by
  rw [entryTypeOf, entryTypeOf, List.find?_cons]
  cases e with
  | symbol i n2 ty => exact absurd rfl (he i n2 ty)
  | constUnion v ty => simp
  | aggregate op cs ty => simp
  | binary op l r ty => simp
  | unary op o ty => simp
  | null => simp

theorem entryTypeOf_of_mem :
    ∀ {entries : List TNode} {i : Nat} {n : String} {ty : TType},
    TNode.symbol i n ty ∈ entries →
    ∃ j ty2, entryTypeOf entries n = some ty2
      ∧ TNode.symbol j n ty2 ∈ entries
  | [], _, _, _ => fun h => absurd h (List.not_mem_nil _)
  | e :: rest, i, n, ty => by
      intro h
      cases e with
      | symbol k n2 ty2 =>
          rw [entryTypeOf_cons_symbol]
          by_cases hn : n2 = n
          · subst hn
            rw [if_pos rfl]
            exact ⟨k, ty2, rfl, List.Mem.head _⟩
          · rw [if_neg hn]
            rcases List.mem_cons.mp h with heq | htl
            · rw [TNode.symbol.injEq] at heq
              exact absurd heq.2.1.symm hn
            · rcases entryTypeOf_of_mem htl with ⟨j, ty3, hf, hmem⟩
              exact ⟨j, ty3, hf, List.Mem.tail _ hmem⟩
      | constUnion v ty2 =>
          rw [entryTypeOf_cons_nonsym _ _ (by intro a b c hcon; cases hcon)]
          rcases List.mem_cons.mp h with heq | htl
          · cases heq
          · rcases entryTypeOf_of_mem htl with ⟨j, ty3, hf, hmem⟩
            exact ⟨j, ty3, hf, List.Mem.tail _ hmem⟩
      | aggregate op cs ty2 =>
          rw [entryTypeOf_cons_nonsym _ _ (by intro a b c hcon; cases hcon)]
          rcases List.mem_cons.mp h with heq | htl
          · cases heq
          · rcases entryTypeOf_of_mem htl with ⟨j, ty3, hf, hmem⟩
            exact ⟨j, ty3, hf, List.Mem.tail _ hmem⟩
      | binary op l r ty2 =>
          rw [entryTypeOf_cons_nonsym _ _ (by intro a b c hcon; cases hcon)]
          rcases List.mem_cons.mp h with heq | htl
          · cases heq
          · rcases entryTypeOf_of_mem htl with ⟨j, ty3, hf, hmem⟩
            exact ⟨j, ty3, hf, List.Mem.tail _ hmem⟩
      | unary op o ty2 =>
          rw [entryTypeOf_cons_nonsym _ _ (by intro a b c hcon; cases hcon)]
          rcases List.mem_cons.mp h with heq | htl
          · cases heq
          · rcases entryTypeOf_of_mem htl with ⟨j, ty3, hf, hmem⟩
            exact ⟨j, ty3, hf, List.Mem.tail _ hmem⟩
      | null =>
          rw [entryTypeOf_cons_nonsym _ _ (by intro a b c hcon; cases hcon)]
          rcases List.mem_cons.mp h with heq | htl
          · cases heq
          · rcases entryTypeOf_of_mem htl with ⟨j, ty3, hf, hmem⟩
            exact ⟨j, ty3, hf, List.Mem.tail _ hmem⟩

theorem agreesWith_symbol {entries : List TNode} {i : Nat} {n : String}
    {ty : TType} (h : agreesWith entries (.symbol i n ty) = true) :
    ∀ ty2, entryTypeOf entries n = some ty2 → ty = ty2 := by
  intro ty2 hf
  rw [agreesWith, hf] at h
  exact of_decide_eq_true h
theorem noLinkerTag_not_linkerAggregate {t : TNode} (h : noLinkerTag t = true) :
    isLinkerAggregate t = false := by
  cases t with
  | aggregate op cs ty =>
      rw [noLinkerTag, Bool.and_eq_true] at h
      cases op with
      | linkerObjects => simp at h
      | indexDirectStruct => rfl
      | indexDirect => rfl
      | constructTextureSampler => rfl
      | negative => rfl
      | dPdy => rfl
      | dPdyFine => rfl
      | dPdyCoarse => rfl
      | shapeConversion => rfl
      | sequence => rfl
      | other tag => rfl
  | symbol i n ty => rfl
  | constUnion v ty => rfl
  | binary op l r ty => rfl
  | unary op o ty => rfl
  | null => rfl

mutual

theorem substCand_noLinkerTag (cand : TType → Bool) (m : List (String × TNode))
    (hrep : ∀ n, noLinkerTag ((mapFind? m n).getD TNode.null) = true) :
    ∀ t, noLinkerTag t = true → noLinkerTag (substCand cand m t) = true
  | .symbol i n ty => by
      intro ht
      rw [substCand]
      by_cases hc : cand ty = true
      · rw [if_pos hc]
        exact hrep n
      · rw [if_neg hc]
        exact ht
  | .constUnion v ty => fun ht => ht
  | .aggregate op cs ty => by
      intro ht
      rw [noLinkerTag, Bool.and_eq_true] at ht
      rw [substCand, noLinkerTag, Bool.and_eq_true]
      exact ⟨ht.1, substCand_noLinkerTagL cand m hrep cs ht.2⟩
  | .binary op l r ty => by
      intro ht
      rw [noLinkerTag, Bool.and_eq_true] at ht
      rw [substCand, noLinkerTag, Bool.and_eq_true]
      exact ⟨substCand_noLinkerTag cand m hrep l ht.1,
        substCand_noLinkerTag cand m hrep r ht.2⟩
  | .unary op o ty => by
      intro ht
      rw [noLinkerTag] at ht
      rw [substCand, noLinkerTag]
      exact substCand_noLinkerTag cand m hrep o ht
  | .null => fun ht => ht

theorem substCand_noLinkerTagL (cand : TType → Bool) (m : List (String × TNode))
    (hrep : ∀ n, noLinkerTag ((mapFind? m n).getD TNode.null) = true) :
    ∀ l : List TNode, noLinkerTagL l = true →
      noLinkerTagL (substCandL cand m l) = true
  | [] => fun ht => ht
  | c :: cs => by
      intro ht
      rw [noLinkerTagL, Bool.and_eq_true] at ht
      rw [substCandL, noLinkerTagL, Bool.and_eq_true]
      exact ⟨substCand_noLinkerTag cand m hrep c ht.1,
        substCand_noLinkerTagL cand m hrep cs ht.2⟩

end

mutual

theorem substCand_coveredBy (cand : TType → Bool) (m : List (String × TNode))
    (newNames oldNames : List String) (entries : List TNode)
    (H : ∀ (i : Nat) (n : String) (ty : TType),
        (ty.qualifier.storage.isExternal = true → n ∈ oldNames) →
        (∀ ty2, entryTypeOf entries n = some ty2 → ty = ty2) →
        coveredBy newNames
          (if cand ty then (mapFind? m n).getD TNode.null
           else TNode.symbol i n ty) = true) :
    ∀ t, coveredBy oldNames t = true → agreesWith entries t = true →
      coveredBy newNames (substCand cand m t) = true
  | .symbol i n ty => by
      intro hcov hagr
      rw [coveredBy, Bool.or_eq_true, Bool.not_eq_true'] at hcov
      have hext : ty.qualifier.storage.isExternal = true → n ∈ oldNames := by
        intro he
        rcases hcov with hf | hc
        · rw [he] at hf; cases hf
        · exact (containsStr_iff n oldNames).mp hc
      rw [substCand]
      exact H i n ty hext (agreesWith_symbol hagr)
  | .constUnion v ty => fun _ _ => rfl
  | .aggregate op cs ty => by
      intro hcov hagr
      rw [coveredBy] at hcov
      rw [agreesWith] at hagr
      rw [substCand, coveredBy]
      exact substCand_coveredByL cand m newNames oldNames entries H cs hcov hagr
  | .binary op l r ty => by
      intro hcov hagr
      rw [coveredBy, Bool.and_eq_true] at hcov
      rw [agreesWith, Bool.and_eq_true] at hagr
      rw [substCand, coveredBy, Bool.and_eq_true]
      exact ⟨substCand_coveredBy cand m newNames oldNames entries H l hcov.1 hagr.1,
        substCand_coveredBy cand m newNames oldNames entries H r hcov.2 hagr.2⟩
  | .unary op o ty => by
      intro hcov hagr
      rw [coveredBy] at hcov
      rw [agreesWith] at hagr
      rw [substCand, coveredBy]
      exact substCand_coveredBy cand m newNames oldNames entries H o hcov hagr
  | .null => fun _ _ => rfl

theorem substCand_coveredByL (cand : TType → Bool) (m : List (String × TNode))
    (newNames oldNames : List String) (entries : List TNode)
    (H : ∀ (i : Nat) (n : String) (ty : TType),
        (ty.qualifier.storage.isExternal = true → n ∈ oldNames) →
        (∀ ty2, entryTypeOf entries n = some ty2 → ty = ty2) →
        coveredBy newNames
          (if cand ty then (mapFind? m n).getD TNode.null
           else TNode.symbol i n ty) = true) :
    ∀ l : List TNode, coveredByL oldNames l = true → agreesWithL entries l = true →
      coveredByL newNames (substCandL cand m l) = true
  | [] => fun _ _ => rfl
  | c :: cs => by
      intro hcov hagr
      rw [coveredByL, Bool.and_eq_true] at hcov
      rw [agreesWithL, Bool.and_eq_true] at hagr
      rw [substCandL, coveredByL, Bool.and_eq_true]
      exact ⟨substCand_coveredBy cand m newNames oldNames entries H c hcov.1 hagr.1,
        substCand_coveredByL cand m newNames oldNames entries H cs hcov.2 hagr.2⟩

end
theorem mem_names_entry {entries : List TNode}
    (hall : entries.all isExtSymbolEntry = true) {n : String}
    (h : n ∈ entries.map entryName) :
    ∃ i ty, TNode.symbol i n ty ∈ entries := by
  rcases List.mem_map.mp h with ⟨e, hmem, hname⟩
  have hext := List.all_eq_true.mp hall e hmem
  cases e with
  | symbol i n2 ty =>
      have : n2 = n := hname
      subst this
      exact ⟨i, ty, hmem⟩
  | constUnion v ty => cases hext
  | aggregate op cs ty => cases hext
  | binary op l r ty => cases hext
  | unary op o ty => cases hext
  | null => cases hext

theorem collectLinkerMap_keys_mem (cand : TType → Bool) (entries : List TNode)
    (n : String) :
    n ∈ (collectLinkerMap cand entries).map (fun e => e.1) ↔
      ∃ i ty, TNode.symbol i n ty ∈ entries ∧ cand ty = true := by
  rw [collectLinkerMap, collectFold_keys_mem cand n entries []]
  simp

theorem mapFind?_eq_none_of_not_mem {m : List (String × α)} {n : String}
    (h : ¬ n ∈ m.map (fun e => e.1)) : mapFind? m n = none := by
  rcases hf : mapFind? m n with _ | v
  · rfl
  · exfalso
    apply h
    rw [← mapFind?_isSome, hf]
    rfl

theorem packReplacements_values {s : TNode} :
    ∀ {k : Nat} {members : List FieldType} {e : String × TNode},
    e ∈ packReplacements s k members →
    ∃ (j : Nat) (mem : FieldType),
      e.2 = .binary .indexDirectStruct s (.constUnion j uintConstType) mem.toTType
  | k, [], e => fun h => absurd h (List.not_mem_nil _)
  | k, mem :: rest, e => by
      intro h
      rw [packReplacements] at h
      rcases List.mem_cons.mp h with rfl | htl
      · exact ⟨k, mem, rfl⟩
      · exact packReplacements_values htl

theorem linkerEntriesOf_eq {rop : Op} {cs : List TNode} {rty : TType}
    {entries : List TNode} {lty : TType}
    (hlast : cs.getLast? = some (.aggregate .linkerObjects entries lty)) :
    linkerEntriesOf (.aggregate rop cs rty) = entries := by
  rw [linkerEntriesOf, hlast]
theorem pack_preserves (nid : Nat) {t : TNode} (h : linkerInvariant t = true)
    (hf : packFresh t = true) (ha : bodyAgrees t = true) :
    linkerInvariant (moveNonSamplerUniformsIntoStruct nid t) = true := by
  obtain ⟨rop, cs, rty, entries, lty, rfl, hlast, h1, h2, h3⟩ := linkerInvariant_inv h
  have hpass : moveNonSamplerUniformsIntoStruct nid (TNode.aggregate rop cs rty) =
      TNode.aggregate rop
        (((cs.dropLast).map (substCand isPackCandidate
            (packReplacements
              (TNode.symbol nid "anon@0" (packStructType (packStructMembers entries)))
              0 (packStructMembers entries))))
          ++ [TNode.aggregate Op.linkerObjects
              (packLinkerSurgery (collectLinkerMap isPackCandidate entries)
                (TNode.symbol nid "anon@0" (packStructType (packStructMembers entries)))
                entries) lty]) rty := by
    rw [moveNonSamplerUniformsIntoStruct, hlast]
  rw [hpass]
  have hanonNotOld : ¬ "anon@0" ∈ entries.map entryName := by
    rw [packFresh, linkerEntriesOf_eq hlast, Bool.not_eq_true',
      ← Bool.not_eq_true] at hf
    intro hmem
    exact hf ((containsStr_iff _ _).mpr hmem)
  have hagrees : ∀ c ∈ cs.dropLast, agreesWith entries c = true := by
    rw [bodyAgrees, linkerEntriesOf_eq hlast] at ha
    exact List.all_eq_true.mp ha
  have hndOld : (entries.map entryName).Nodup := (nodupStr_iff _).mp h2
  -- the new linker entry list and its names
  have hnames' : (packLinkerSurgery (collectLinkerMap isPackCandidate entries)
      (TNode.symbol nid "anon@0" (packStructType (packStructMembers entries)))
      entries).map entryName =
      "anon@0" :: (entries.filter (fun e =>
        match e with
        | TNode.symbol _ n _ => (mapFind? (collectLinkerMap isPackCandidate entries) n).isNone
        | _ => true)).map entryName := by
    rw [packLinkerSurgery]
    rfl
  have hkeptSub : ∀ x ∈ (entries.filter (fun e =>
      match e with
      | TNode.symbol _ n _ => (mapFind? (collectLinkerMap isPackCandidate entries) n).isNone
      | _ => true)).map entryName, x ∈ entries.map entryName := by
    intro x hx
    rcases List.mem_map.mp hx with ⟨e, he, rfl⟩
    exact List.mem_map.mpr ⟨e, List.mem_of_mem_filter he, rfl⟩
  apply linkerInvariant_mk (List.getLast?_concat _)
  · -- every new entry is an external symbol
    rw [packLinkerSurgery, List.all_cons, Bool.and_eq_true]
    refine ⟨rfl, ?_⟩
    rw [List.all_eq_true]
    intro e he
    exact List.all_eq_true.mp h1 e (List.mem_of_mem_filter he)
  · -- new names pairwise distinct
    rw [nodupStr_iff, hnames', List.nodup_cons]
    constructor
    · intro hmem
      exact hanonNotOld (hkeptSub _ hmem)
    · refine List.Nodup.sublist ?_ hndOld
      exact List.Sublist.map entryName (List.filter_sublist entries)
  · -- body: no linker tags, coverage by the new names
    rw [List.dropLast_concat, List.all_eq_true]
    intro c' hc'
    rcases List.mem_map.mp hc' with ⟨c, hc, rfl⟩
    have hcc := List.all_eq_true.mp h3 c hc
    rw [Bool.and_eq_true] at hcc
    rw [Bool.and_eq_true]
    have hreplTag : ∀ n, noLinkerTag ((mapFind? (packReplacements
        (TNode.symbol nid "anon@0" (packStructType (packStructMembers entries)))
        0 (packStructMembers entries)) n).getD TNode.null) = true := by
      intro n
      refine mapFind?_getD_cases (P := fun x => noLinkerTag x = true) rfl ?_
      intro e he
      rcases packReplacements_values he with ⟨j, mem, hv⟩
      rw [hv]
      rfl
    have hanonNew : ((packLinkerSurgery (collectLinkerMap isPackCandidate entries)
        (TNode.symbol nid "anon@0" (packStructType (packStructMembers entries)))
        entries).map entryName).contains "anon@0" = true := by
      rw [containsStr_iff, hnames']
      exact List.Mem.head _
    constructor
    · exact substCand_noLinkerTag _ _ hreplTag c hcc.1
    · refine substCand_coveredBy isPackCandidate _ _ (entries.map entryName) entries
        ?_ c hcc.2 (hagrees c hc)
      intro i n ty hext hagr
      by_cases hcand : isPackCandidate ty = true
      · rw [if_pos hcand]
        refine mapFind?_getD_cases
          (P := fun x => coveredBy ((packLinkerSurgery
            (collectLinkerMap isPackCandidate entries)
            (TNode.symbol nid "anon@0" (packStructType (packStructMembers entries)))
            entries).map entryName) x = true) rfl ?_
        intro e he
        rcases packReplacements_values he with ⟨j, mem, hv⟩
        rw [hv]
        show (coveredBy _ (TNode.symbol nid "anon@0" (packStructType (packStructMembers entries)))
          && coveredBy _ (TNode.constUnion j uintConstType)) = true
        rw [Bool.and_eq_true]
        refine ⟨?_, rfl⟩
        show (!(TStorage.isExternal .uniform) ||
          ((packLinkerSurgery (collectLinkerMap isPackCandidate entries)
            (TNode.symbol nid "anon@0" (packStructType (packStructMembers entries)))
            entries).map entryName).contains "anon@0") = true
        rw [hanonNew]
        simp
      · rw [if_neg hcand]
        rw [coveredBy, Bool.or_eq_true, Bool.not_eq_true']
        by_cases hext2 : ty.qualifier.storage.isExternal = true
        · refine Or.inr ?_
          have hnOld := hext hext2
          rcases mem_names_entry h1 hnOld with ⟨i2, ty2, hmem2⟩
          rcases entryTypeOf_of_mem hmem2 with ⟨j, ty3, hfind, hmem3⟩
          have hty3 : ty = ty3 := hagr ty3 hfind
          have hnotkeys : ¬ n ∈ (collectLinkerMap isPackCandidate entries).map
              (fun e => e.1) := by
            intro hkeys
            rcases (collectLinkerMap_keys_mem isPackCandidate entries n).mp hkeys
              with ⟨i4, ty4, hmem4, hcand4⟩
            have : ty4 = ty3 := entries_name_unique hndOld hmem4 hmem3
            rw [this, ← hty3] at hcand4
            exact absurd hcand4 hcand
          have hnone := mapFind?_eq_none_of_not_mem hnotkeys
          rw [containsStr_iff, hnames']
          refine List.Mem.tail _ ?_
          refine List.mem_map.mpr ⟨TNode.symbol j n ty3, ?_, rfl⟩
          rw [List.mem_filter]
          refine ⟨hmem3, ?_⟩
          show (mapFind? (collectLinkerMap isPackCandidate entries) n).isNone = true
          rw [hnone]
          rfl
        · exact Or.inl (by rw [Bool.not_eq_true] at hext2; exact hext2)
mutual

theorem invert_noLinkerTag : ∀ t : TNode, noLinkerTag t = true →
    noLinkerTag (invertYDerivativeOperands t) = true
  | .symbol i n ty => fun h => h
  | .constUnion v ty => fun h => h
  | .null => fun h => h
  | .aggregate op cs ty => by
      intro h
      rw [noLinkerTag, Bool.and_eq_true] at h
      rw [invertYDerivativeOperands, noLinkerTag, Bool.and_eq_true]
      exact ⟨h.1, invert_noLinkerTagL cs h.2⟩
  | .binary op l r ty => by
      intro h
      rw [noLinkerTag, Bool.and_eq_true] at h
      rw [invertYDerivativeOperands, noLinkerTag, Bool.and_eq_true]
      exact ⟨invert_noLinkerTag l h.1, invert_noLinkerTag r h.2⟩
  | .unary op o ty => by
      intro h
      rw [noLinkerTag] at h
      rw [invertYDerivativeOperands]
      by_cases hop : isDPdyOp op = true
      · rw [if_pos hop]
        exact h
      · rw [if_neg hop, noLinkerTag]
        exact invert_noLinkerTag o h

theorem invert_noLinkerTagL : ∀ l : List TNode, noLinkerTagL l = true →
    noLinkerTagL (invertYDerivativeOperandsL l) = true
  | [] => fun h => h
  | c :: cs => by
      intro h
      rw [noLinkerTagL, Bool.and_eq_true] at h
      rw [invertYDerivativeOperandsL, noLinkerTagL, Bool.and_eq_true]
      exact ⟨invert_noLinkerTag c h.1, invert_noLinkerTagL cs h.2⟩

end

mutual

theorem invert_coveredBy (ns : List String) : ∀ t : TNode,
    coveredBy ns t = true → coveredBy ns (invertYDerivativeOperands t) = true
  | .symbol i n ty => fun h => h
  | .constUnion v ty => fun h => h
  | .null => fun h => h
  | .aggregate op cs ty => by
      intro h
      rw [coveredBy] at h
      rw [invertYDerivativeOperands, coveredBy]
      exact invert_coveredByL ns cs h
  | .binary op l r ty => by
      intro h
      rw [coveredBy, Bool.and_eq_true] at h
      rw [invertYDerivativeOperands, coveredBy, Bool.and_eq_true]
      exact ⟨invert_coveredBy ns l h.1, invert_coveredBy ns r h.2⟩
  | .unary op o ty => by
      intro h
      rw [coveredBy] at h
      rw [invertYDerivativeOperands]
      by_cases hop : isDPdyOp op = true
      · rw [if_pos hop]
        exact h
      · rw [if_neg hop, coveredBy]
        exact invert_coveredBy ns o h

theorem invert_coveredByL (ns : List String) : ∀ l : List TNode,
    coveredByL ns l = true → coveredByL ns (invertYDerivativeOperandsL l) = true
  | [] => fun h => h
  | c :: cs => by
      intro h
      rw [coveredByL, Bool.and_eq_true] at h
      rw [invertYDerivativeOperandsL, coveredByL, Bool.and_eq_true]
      exact ⟨invert_coveredBy ns c h.1, invert_coveredByL ns cs h.2⟩

end

theorem invertL_append : ∀ xs ys : List TNode,
    invertYDerivativeOperandsL (xs ++ ys) =
      invertYDerivativeOperandsL xs ++ invertYDerivativeOperandsL ys
  | [], ys => rfl
  | x :: xs, ys => by
      rw [List.cons_append, invertYDerivativeOperandsL, invertYDerivativeOperandsL,
        invertL_append xs ys, List.cons_append]

theorem invertL_entries {entries : List TNode}
    (h : entries.all isExtSymbolEntry = true) :
    invertYDerivativeOperandsL entries = entries := by
  induction entries with
  | nil => rfl
  | cons e rest ih =>
      rw [List.all_cons, Bool.and_eq_true] at h
      rw [invertYDerivativeOperandsL, ih h.2]
      congr 1
      cases e with
      | symbol i n ty => rfl
      | constUnion v ty => cases h.1
      | aggregate op cs ty => cases h.1
      | binary op l r ty => cases h.1
      | unary op o ty => cases h.1
      | null => cases h.1

theorem invert_preserves {t : TNode} (h : linkerInvariant t = true) :
    linkerInvariant (invertYDerivativeOperands t) = true := by
  obtain ⟨rop, cs, rty, entries, lty, rfl, hlast, h1, h2, h3⟩ := linkerInvariant_inv h
  have hcs := eq_dropLast_concat hlast
  have hres : invertYDerivativeOperands (TNode.aggregate rop cs rty) =
      TNode.aggregate rop
        (invertYDerivativeOperandsL cs.dropLast
          ++ [TNode.aggregate Op.linkerObjects entries lty]) rty := by
    rw [invertYDerivativeOperands]
    congr 1
    rw [show invertYDerivativeOperandsL cs =
        invertYDerivativeOperandsL (cs.dropLast
          ++ [TNode.aggregate Op.linkerObjects entries lty]) from by rw [← hcs]]
    rw [invertL_append]
    congr 1
    rw [invertYDerivativeOperandsL, invertYDerivativeOperandsL]
    rw [show invertYDerivativeOperands (TNode.aggregate Op.linkerObjects entries lty) =
        TNode.aggregate Op.linkerObjects (invertYDerivativeOperandsL entries) lty
      from rfl]
    rw [invertL_entries h1]
  rw [hres]
  apply linkerInvariant_mk (List.getLast?_concat _) h1 h2
  rw [List.dropLast_concat, List.all_eq_true]
  have hmapform : ∀ l : List TNode,
      invertYDerivativeOperandsL l = l.map invertYDerivativeOperands := by
    intro l
    induction l with
    | nil => rfl
    | cons a rest ih => rw [invertYDerivativeOperandsL, ih, List.map_cons]
  intro c hc
  rw [hmapform] at hc
  rcases List.mem_map.mp hc with ⟨c0, hc0, rfl⟩
  have hcc := List.all_eq_true.mp h3 c0 hc0
  rw [Bool.and_eq_true] at hcc
  rw [Bool.and_eq_true]
  exact ⟨invert_noLinkerTag c0 hcc.1, invert_coveredBy _ c0 hcc.2⟩
theorem retypePromote_noLinkerTag {t : TNode} (h : noLinkerTag t = true) :
    noLinkerTag (retypePromote t) = true := by
  cases t <;> exact h

theorem retypePromote_coveredBy {ns : List String} {t : TNode}
    (h : coveredBy ns t = true) : coveredBy ns (retypePromote t) = true := by
  cases t <;> exact h

mutual

theorem promoteSlot_noLinkerTag : ∀ {t t' : TNode}, promoteSlot t = .ok t' →
    noLinkerTag t = true → noLinkerTag t' = true
  | .symbol i n ty, t' => by
      intro h ht
      rw [promoteSlot] at h
      by_cases hc : isPromoteCandidate ty = true
      · rw [if_pos hc] at h
        by_cases harr : ty.isArray = true
        · rw [if_pos harr] at h
          cases h
        · rw [if_neg harr] at h
          cases h
          rfl
      · rw [if_neg hc] at h
        cases h
        exact ht
  | .constUnion v ty, t' => by
      intro h ht
      rw [promoteSlot] at h
      cases h
      exact ht
  | .null, t' => by
      intro h ht
      rw [promoteSlot] at h
      cases h
      exact ht
  | .aggregate op cs ty, t' => by
      intro h ht
      rw [promoteSlot] at h
      rcases hL : promoteSlotL cs with e | cs'
      · rw [hL] at h
        cases h
      · rw [hL] at h
        cases h
        rw [noLinkerTag, Bool.and_eq_true] at ht ⊢
        exact ⟨ht.1, promoteSlotL_noLinkerTag hL ht.2⟩
  | .unary op o ty, t' => by
      intro h ht
      rw [promoteSlot] at h
      rcases hO : promoteSlot o with e | o'
      · rw [hO] at h
        cases h
      · rw [hO] at h
        cases h
        rw [noLinkerTag] at ht ⊢
        exact promoteSlot_noLinkerTag hO ht
  | .binary op l r ty, t' => by
      intro h ht
      rw [promoteSlot] at h
      rw [noLinkerTag, Bool.and_eq_true] at ht
      by_cases hl : isPromoteArraySym l = true
      · rw [if_pos hl] at h
        by_cases hr : isPromoteArraySym r = true
        · rw [if_pos hr] at h
          cases h
          show (noLinkerTag (retypePromote l) && noLinkerTag (retypePromote r)) = true
          rw [Bool.and_eq_true]
          exact ⟨retypePromote_noLinkerTag ht.1, retypePromote_noLinkerTag ht.2⟩
        · rw [if_neg hr] at h
          rcases hR : promoteSlot r with e | r'
          · rw [hR] at h
            cases h
          · rw [hR] at h
            cases h
            show (noLinkerTag (retypePromote l) && noLinkerTag r') = true
            rw [Bool.and_eq_true]
            exact ⟨retypePromote_noLinkerTag ht.1, promoteSlot_noLinkerTag hR ht.2⟩
      · rw [if_neg hl] at h
        by_cases hr : isPromoteArraySym r = true
        · rw [if_pos hr] at h
          rcases hL : promoteSlot l with e | l'
          · rw [hL] at h
            cases h
          · rw [hL] at h
            cases h
            show (noLinkerTag l' && noLinkerTag (retypePromote r)) = true
            rw [Bool.and_eq_true]
            exact ⟨promoteSlot_noLinkerTag hL ht.1, retypePromote_noLinkerTag ht.2⟩
        · rw [if_neg hr] at h
          rcases hL : promoteSlot l with e | l'
          · rw [hL] at h
            cases h
          · rw [hL] at h
            rcases hR : promoteSlot r with e | r'
            · rw [hR] at h
              cases h
            · rw [hR] at h
              cases h
              rw [noLinkerTag, Bool.and_eq_true]
              exact ⟨promoteSlot_noLinkerTag hL ht.1, promoteSlot_noLinkerTag hR ht.2⟩

theorem promoteSlotL_noLinkerTag : ∀ {l l' : List TNode}, promoteSlotL l = .ok l' →
    noLinkerTagL l = true → noLinkerTagL l' = true
  | [], l' => by
      intro h ht
      rw [promoteSlotL] at h
      cases h
      exact ht
  | c :: cs, l' => by
      intro h ht
      rw [promoteSlotL] at h
      rw [noLinkerTagL, Bool.and_eq_true] at ht
      rcases hC : promoteSlot c with e | c'
      · rw [hC] at h
        cases h
      · rw [hC] at h
        rcases hCS : promoteSlotL cs with e | cs'
        · rw [hCS] at h
          cases h
        · rw [hCS] at h
          cases h
          rw [noLinkerTagL, Bool.and_eq_true]
          exact ⟨promoteSlot_noLinkerTag hC ht.1, promoteSlotL_noLinkerTag hCS ht.2⟩

end
mutual

theorem promoteSlot_coveredBy (ns : List String) : ∀ {t t' : TNode},
    promoteSlot t = .ok t' → coveredBy ns t = true → coveredBy ns t' = true
  | .symbol i n ty, t' => by
      intro h ht
      rw [promoteSlot] at h
      by_cases hc : isPromoteCandidate ty = true
      · rw [if_pos hc] at h
        by_cases harr : ty.isArray = true
        · rw [if_pos harr] at h
          cases h
        · rw [if_neg harr] at h
          cases h
          exact ht
      · rw [if_neg hc] at h
        cases h
        exact ht
  | .constUnion v ty, t' => by
      intro h ht
      rw [promoteSlot] at h
      cases h
      exact ht
  | .null, t' => by
      intro h ht
      rw [promoteSlot] at h
      cases h
      exact ht
  | .aggregate op cs ty, t' => by
      intro h ht
      rw [promoteSlot] at h
      rcases hL : promoteSlotL cs with e | cs'
      · rw [hL] at h
        cases h
      · rw [hL] at h
        cases h
        rw [coveredBy] at ht ⊢
        exact promoteSlotL_coveredBy ns hL ht
  | .unary op o ty, t' => by
      intro h ht
      rw [promoteSlot] at h
      rcases hO : promoteSlot o with e | o'
      · rw [hO] at h
        cases h
      · rw [hO] at h
        cases h
        rw [coveredBy] at ht ⊢
        exact promoteSlot_coveredBy ns hO ht
  | .binary op l r ty, t' => by
      intro h ht
      rw [promoteSlot] at h
      rw [coveredBy, Bool.and_eq_true] at ht
      by_cases hl : isPromoteArraySym l = true
      · rw [if_pos hl] at h
        by_cases hr : isPromoteArraySym r = true
        · rw [if_pos hr] at h
          cases h
          show (coveredBy ns (retypePromote l) && coveredBy ns (retypePromote r)) = true
          rw [Bool.and_eq_true]
          exact ⟨retypePromote_coveredBy ht.1, retypePromote_coveredBy ht.2⟩
        · rw [if_neg hr] at h
          rcases hR : promoteSlot r with e | r'
          · rw [hR] at h
            cases h
          · rw [hR] at h
            cases h
            show (coveredBy ns (retypePromote l) && coveredBy ns r') = true
            rw [Bool.and_eq_true]
            exact ⟨retypePromote_coveredBy ht.1, promoteSlot_coveredBy ns hR ht.2⟩
      · rw [if_neg hl] at h
        by_cases hr : isPromoteArraySym r = true
        · rw [if_pos hr] at h
          rcases hL : promoteSlot l with e | l'
          · rw [hL] at h
            cases h
          · rw [hL] at h
            cases h
            show (coveredBy ns l' && coveredBy ns (retypePromote r)) = true
            rw [Bool.and_eq_true]
            exact ⟨promoteSlot_coveredBy ns hL ht.1, retypePromote_coveredBy ht.2⟩
        · rw [if_neg hr] at h
          rcases hL : promoteSlot l with e | l'
          · rw [hL] at h
            cases h
          · rw [hL] at h
            rcases hR : promoteSlot r with e | r'
            · rw [hR] at h
              cases h
            · rw [hR] at h
              cases h
              rw [coveredBy, Bool.and_eq_true]
              exact ⟨promoteSlot_coveredBy ns hL ht.1, promoteSlot_coveredBy ns hR ht.2⟩

theorem promoteSlotL_coveredBy (ns : List String) : ∀ {l l' : List TNode},
    promoteSlotL l = .ok l' → coveredByL ns l = true → coveredByL ns l' = true
  | [], l' => by
      intro h ht
      rw [promoteSlotL] at h
      cases h
      exact ht
  | c :: cs, l' => by
      intro h ht
      rw [promoteSlotL] at h
      rw [coveredByL, Bool.and_eq_true] at ht
      rcases hC : promoteSlot c with e | c'
      · rw [hC] at h
        cases h
      · rw [hC] at h
        rcases hCS : promoteSlotL cs with e | cs'
        · rw [hCS] at h
          cases h
        · rw [hCS] at h
          cases h
          rw [coveredByL, Bool.and_eq_true]
          exact ⟨promoteSlot_coveredBy ns hC ht.1, promoteSlotL_coveredBy ns hCS ht.2⟩

end

theorem promoteLinkerNode_entryName (e : TNode) :
    entryName (promoteLinkerNode e) = entryName e := by
  cases e with
  | symbol i n ty =>
      rw [promoteLinkerNode]
      by_cases hc : isPromoteCandidate ty = true
      · rw [if_pos hc]
        rfl
      · rw [if_neg hc]
  | constUnion v ty => rfl
  | aggregate op cs ty => rfl
  | binary op l r ty => rfl
  | unary op o ty => rfl
  | null => rfl

theorem promoteLinkerNode_ext {e : TNode} (h : isExtSymbolEntry e = true) :
    isExtSymbolEntry (promoteLinkerNode e) = true := by
  cases e with
  | symbol i n ty =>
      rw [promoteLinkerNode]
      by_cases hc : isPromoteCandidate ty = true
      · rw [if_pos hc]
        exact h
      · rw [if_neg hc]
        exact h
  | constUnion v ty => cases h
  | aggregate op cs ty => cases h
  | binary op l r ty => cases h
  | unary op o ty => cases h
  | null => cases h

theorem promoteLinkerL_eq_map : ∀ l : List TNode,
    promoteLinkerL l = l.map promoteLinkerNode
  | [] => rfl
  | c :: cs => by rw [promoteLinkerL, promoteLinkerL_eq_map cs, List.map_cons]

theorem forall₂_mem_right {R : α → β → Prop} :
    ∀ {xs : List α} {ys : List β}, List.Forall₂ R xs ys →
    ∀ {y}, y ∈ ys → ∃ x ∈ xs, R x y := by
  intro xs ys h
  induction h with
  | nil => intro y hy; cases hy
  | cons hr _ ih =>
      intro y hy
      rcases List.mem_cons.mp hy with rfl | hy2
      · exact ⟨_, List.Mem.head _, hr⟩
      · rcases ih hy2 with ⟨x, hx, hxy⟩
        exact ⟨x, List.Mem.tail _ hx, hxy⟩

theorem changeL_append :
    ∀ {xs : List TNode} {la : TNode} {cs' : List TNode},
    (∀ x ∈ xs, isLinkerAggregate x = false) → isLinkerAggregate la = true →
    changeUniformTypesL (xs ++ [la]) = .ok cs' →
    ∃ ys, cs' = ys ++ [promoteLinkerNode la]
      ∧ List.Forall₂ (fun x y => promoteSlot x = .ok y) xs ys
  | [], la, cs' => by
      intro _ hla h
      rw [List.nil_append, changeUniformTypesL] at h
      rw [if_pos hla] at h
      rw [changeUniformTypesL] at h
      cases h
      exact ⟨[], rfl, List.Forall₂.nil⟩
  | x :: xs, la, cs' => by
      intro hxs hla h
      rw [List.cons_append, changeUniformTypesL] at h
      have hx := hxs x (List.Mem.head _)
      rw [if_neg (by rw [hx]; exact Bool.false_ne_true)] at h
      rcases hX : promoteSlot x with e | x'
      · rw [hX] at h
        cases h
      · rw [hX] at h
        rcases hT : changeUniformTypesL (xs ++ [la]) with e | tail'
        · rw [hT] at h
          cases h
        · rw [hT] at h
          cases h
          rcases changeL_append (fun z hz => hxs z (List.Mem.tail _ hz)) hla hT
            with ⟨ys, rfl, hf⟩
          exact ⟨x' :: ys, rfl, List.Forall₂.cons hX hf⟩

theorem promote_preserves {t t' : TNode} (h : linkerInvariant t = true)
    (hp : changeUniformTypes t = .ok t') : linkerInvariant t' = true := by
  obtain ⟨rop, cs, rty, entries, lty, rfl, hlast, h1, h2, h3⟩ := linkerInvariant_inv h
  rw [changeUniformTypes] at hp
  rcases hL : changeUniformTypesL cs with e | cs'
  · rw [hL] at hp
    cases hp
  · rw [hL] at hp
    cases hp
    have hcs := eq_dropLast_concat hlast
    rw [hcs] at hL
    have hbodyTags : ∀ x ∈ cs.dropLast, isLinkerAggregate x = false := by
      intro x hx
      have hxx := List.all_eq_true.mp h3 x hx
      rw [Bool.and_eq_true] at hxx
      exact noLinkerTag_not_linkerAggregate hxx.1
    rcases changeL_append hbodyTags
      (show isLinkerAggregate (TNode.aggregate Op.linkerObjects entries lty) = true
        from rfl) hL with ⟨ys, rfl, hf⟩
    have hlagg : promoteLinkerNode (TNode.aggregate Op.linkerObjects entries lty) =
        TNode.aggregate Op.linkerObjects (promoteLinkerL entries) lty := rfl
    rw [hlagg]
    have hnames : (promoteLinkerL entries).map entryName = entries.map entryName := by
      rw [promoteLinkerL_eq_map, List.map_map]
      exact List.map_congr_left (fun e _ => promoteLinkerNode_entryName e)
    apply linkerInvariant_mk (List.getLast?_concat _)
    · rw [promoteLinkerL_eq_map, List.all_eq_true]
      intro e he
      rcases List.mem_map.mp he with ⟨e0, he0, rfl⟩
      exact promoteLinkerNode_ext (List.all_eq_true.mp h1 e0 he0)
    · rw [hnames]
      exact h2
    · rw [List.dropLast_concat, hnames, List.all_eq_true]
      intro y hy
      rcases forall₂_mem_right hf hy with ⟨x, hx, hxy⟩
      have hxx := List.all_eq_true.mp h3 x hx
      rw [Bool.and_eq_true] at hxx
      rw [Bool.and_eq_true]
      exact ⟨promoteSlot_noLinkerTag hxy hxx.1, promoteSlot_coveredBy _ hxy hxx.2⟩
mutual

theorem agreesWith_nil : ∀ t : TNode, agreesWith [] t = true
  | .symbol i n ty => rfl
  | .constUnion v ty => rfl
  | .null => rfl
  | .aggregate op cs ty => agreesWithL_nil cs
  | .binary op l r ty => by
      rw [agreesWith, Bool.and_eq_true]
      exact ⟨agreesWith_nil l, agreesWith_nil r⟩
  | .unary op o ty => agreesWith_nil o

theorem agreesWithL_nil : ∀ l : List TNode, agreesWithL [] l = true
  | [] => rfl
  | c :: cs => by
      rw [agreesWithL, Bool.and_eq_true]
      exact ⟨agreesWith_nil c, agreesWithL_nil cs⟩

end

theorem splitBuild_shape :
    ∀ {col : List (String × TType)} {nid b : Nat} {e : SplitEntry},
    e ∈ splitBuild nid b col →
    (e.origName, e.origTy) ∈ col
    ∧ (∃ k j, e.texture = splitTexture k j e.origName e.origTy
        ∧ e.samplerSym = splitSampler k (j + 1) e.origName e.origTy)
    ∧ e.recon = splitRecon e.texture e.samplerSym e.origTy
  | [], nid, b, e => fun h => absurd h (List.not_mem_nil _)
  | (name, ty) :: rest, nid, b, e => by
      intro h
      rw [splitBuild] at h
      rcases List.mem_cons.mp h with rfl | htl
      · exact ⟨List.Mem.head _, ⟨b, nid, rfl, rfl⟩, rfl⟩
      · rcases splitBuild_shape htl with ⟨hcol, hpair, hrec⟩
        exact ⟨List.Mem.tail _ hcol, hpair, hrec⟩

theorem splitBuild_names :
    ∀ (col : List (String × TType)) (nid b : Nat),
    (splitBuild nid b col).map (fun e => e.origName) = col.map (fun p => p.1)
  | [], _, _ => rfl
  | (name, ty) :: rest, nid, b => by
      rw [splitBuild, List.map_cons, List.map_cons, splitBuild_names rest]

theorem find?_self_of_nodup :
    ∀ {es : List SplitEntry},
    (es.map (fun e => e.origName)).Nodup →
    ∀ {e : SplitEntry}, e ∈ es →
    es.find? (fun x => x.origName == e.origName) = some e
  | [], _, e => fun h => absurd h (List.not_mem_nil _)
  | hd :: rest, hnd, e => by
      intro he
      rw [List.map_cons, List.nodup_cons] at hnd
      rcases List.mem_cons.mp he with rfl | htl
      · rw [List.find?_cons]
        simp
      · have hne : (hd.origName == e.origName) = false := by
          rw [beq_eq_false_iff_ne]
          intro hcon
          exact hnd.1 (hcon ▸ List.mem_map.mpr ⟨e, htl, rfl⟩)
        rw [List.find?_cons, hne]
        exact find?_self_of_nodup hnd.2 htl

theorem splitSurgery_all_ext {es : List SplitEntry}
    (hes : ∀ e ∈ es, isExtSymbolEntry e.texture = true
      ∧ isExtSymbolEntry e.samplerSym = true) :
    ∀ {entries : List TNode}, entries.all isExtSymbolEntry = true →
      (splitLinkerSurgery es entries).all isExtSymbolEntry = true
  | [], _ => rfl
  | TNode.symbol i n ty :: rest, hall => by
      rw [List.all_cons, Bool.and_eq_true] at hall
      rcases hf : es.find? (fun x => x.origName == n) with _ | e
      · rw [splitLinkerSurgery, hf, List.all_cons, Bool.and_eq_true]
        exact ⟨hall.1, splitSurgery_all_ext hes hall.2⟩
      · have hmem := List.mem_of_find?_eq_some hf
        rw [splitLinkerSurgery, hf, List.all_cons, List.all_cons,
          Bool.and_eq_true, Bool.and_eq_true]
        exact ⟨(hes e hmem).1, (hes e hmem).2, splitSurgery_all_ext hes hall.2⟩
  | TNode.constUnion v ty :: rest, hall => by
      rw [List.all_cons, Bool.and_eq_true] at hall
      cases hall.1
  | TNode.aggregate op cs ty :: rest, hall => by
      rw [List.all_cons, Bool.and_eq_true] at hall
      cases hall.1
  | TNode.binary op l r ty :: rest, hall => by
      rw [List.all_cons, Bool.and_eq_true] at hall
      cases hall.1
  | TNode.unary op o ty :: rest, hall => by
      rw [List.all_cons, Bool.and_eq_true] at hall
      cases hall.1
  | TNode.null :: rest, hall => by
      rw [List.all_cons, Bool.and_eq_true] at hall
      cases hall.1

theorem splitSurgery_names_subset {es : List SplitEntry}
    (hshape : ∀ e ∈ es, entryName e.samplerSym = e.origName) :
    ∀ {entries : List TNode} {n : String}, n ∈ entries.map entryName →
      n ∈ (splitLinkerSurgery es entries).map entryName
  | [], n => fun h => absurd h (List.not_mem_nil _)
  | hd :: rest, n => by
      intro h
      rcases List.mem_cons.mp h with rfl | htl
      · cases hd with
        | symbol i n2 ty =>
            rcases hf : es.find? (fun x => x.origName == n2) with _ | e
            · rw [splitLinkerSurgery, hf]
              exact List.Mem.head _
            · have hmem := List.mem_of_find?_eq_some hf
              have hp := List.find?_some hf
              rw [beq_iff_eq] at hp
              rw [splitLinkerSurgery, hf]
              refine List.mem_map.mpr ⟨e.samplerSym, ?_, ?_⟩
              · exact List.Mem.tail _ (List.Mem.head _)
              · exact (hshape e hmem).trans hp
        | constUnion v ty => exact List.Mem.head _
        | aggregate op cs ty => exact List.Mem.head _
        | binary op l r ty => exact List.Mem.head _
        | unary op o ty => exact List.Mem.head _
        | null => exact List.Mem.head _
      · cases hd with
        | symbol i n2 ty =>
            rcases hf : es.find? (fun x => x.origName == n2) with _ | e
            · rw [splitLinkerSurgery, hf]
              exact List.Mem.tail _ (splitSurgery_names_subset hshape htl)
            · rw [splitLinkerSurgery, hf]
              exact List.Mem.tail _
                (List.Mem.tail _ (splitSurgery_names_subset hshape htl))
        | constUnion v ty =>
            exact List.Mem.tail _ (splitSurgery_names_subset hshape htl)
        | aggregate op cs ty =>
            exact List.Mem.tail _ (splitSurgery_names_subset hshape htl)
        | binary op l r ty =>
            exact List.Mem.tail _ (splitSurgery_names_subset hshape htl)
        | unary op o ty =>
            exact List.Mem.tail _ (splitSurgery_names_subset hshape htl)
        | null =>
            exact List.Mem.tail _ (splitSurgery_names_subset hshape htl)

theorem splitSurgery_contains_pair {es : List SplitEntry} :
    ∀ {entries : List TNode} {i : Nat} {n : String} {ty : TType} {e : SplitEntry},
    TNode.symbol i n ty ∈ entries →
    es.find? (fun x => x.origName == n) = some e →
    e.texture ∈ splitLinkerSurgery es entries
      ∧ e.samplerSym ∈ splitLinkerSurgery es entries
  | [], i, n, ty, e => fun h _ => absurd h (List.not_mem_nil _)
  | hd :: rest, i, n, ty, e => by
      intro hm hf
      rcases List.mem_cons.mp hm with heq | htl
      · rw [← heq, splitLinkerSurgery, hf]
        exact ⟨List.Mem.head _, List.Mem.tail _ (List.Mem.head _)⟩
      · have hrest := splitSurgery_contains_pair htl hf
        cases hd with
        | symbol i2 n2 ty2 =>
            rcases hf2 : es.find? (fun x => x.origName == n2) with _ | e2
            · rw [splitLinkerSurgery, hf2]
              exact ⟨List.Mem.tail _ hrest.1, List.Mem.tail _ hrest.2⟩
            · rw [splitLinkerSurgery, hf2]
              exact ⟨List.Mem.tail _ (List.Mem.tail _ hrest.1),
                List.Mem.tail _ (List.Mem.tail _ hrest.2)⟩
        | constUnion v ty2 =>
            exact ⟨List.Mem.tail _ hrest.1, List.Mem.tail _ hrest.2⟩
        | aggregate op cs ty2 =>
            exact ⟨List.Mem.tail _ hrest.1, List.Mem.tail _ hrest.2⟩
        | binary op l r ty2 =>
            exact ⟨List.Mem.tail _ hrest.1, List.Mem.tail _ hrest.2⟩
        | unary op o ty2 =>
            exact ⟨List.Mem.tail _ hrest.1, List.Mem.tail _ hrest.2⟩
        | null =>
            exact ⟨List.Mem.tail _ hrest.1, List.Mem.tail _ hrest.2⟩
theorem split_preserves (nid : Nat) {t : TNode} (h : linkerInvariant t = true)
    (hnd : nodupStr ((splitLinkerSurgery (splitEntriesFor nid (linkerEntriesOf t))
      (linkerEntriesOf t)).map entryName) = true) :
    linkerInvariant (splitSamplersIntoSamplersAndTextures nid t) = true := by
  obtain ⟨rop, cs, rty, entries, lty, rfl, hlast, h1, h2, h3⟩ := linkerInvariant_inv h
  rw [linkerEntriesOf_eq hlast] at hnd
  have hpass : splitSamplersIntoSamplersAndTextures nid (TNode.aggregate rop cs rty) =
      TNode.aggregate rop
        (((cs.dropLast).map (substCand isSamplerCandidate
            (splitReplacements (splitEntriesFor nid entries))))
          ++ [TNode.aggregate Op.linkerObjects
              (splitLinkerSurgery (splitEntriesFor nid entries) entries) lty]) rty := by
    rw [splitSamplersIntoSamplersAndTextures, hlast]
  rw [hpass]
  have hshape : ∀ e ∈ splitEntriesFor nid entries,
      (e.origName, e.origTy) ∈ collectLinkerMap isSamplerCandidate entries
      ∧ (∃ k j, e.texture = splitTexture k j e.origName e.origTy
          ∧ e.samplerSym = splitSampler k (j + 1) e.origName e.origTy)
      ∧ e.recon = splitRecon e.texture e.samplerSym e.origTy := by
    intro e he
    rw [splitEntriesFor] at he
    exact splitBuild_shape he
  have hstor : ∀ e ∈ splitEntriesFor nid entries,
      e.origTy.qualifier.storage = .uniform := by
    intro e he
    have hc := collectLinkerMap_values (hshape e he).1
    rw [isSamplerCandidate, Bool.and_eq_true] at hc
    exact eq_of_beq hc.1
  have hextPair : ∀ e ∈ splitEntriesFor nid entries,
      isExtSymbolEntry e.texture = true ∧ isExtSymbolEntry e.samplerSym = true := by
    intro e he
    rcases (hshape e he).2.1 with ⟨k, j, htex, hsmp⟩
    have hst := hstor e he
    constructor
    · rw [htex]
      show TStorage.isExternal e.origTy.qualifier.storage = true
      rw [hst]
      rfl
    · rw [hsmp]
      show TStorage.isExternal e.origTy.qualifier.storage = true
      rw [hst]
      rfl
  have hsmpName : ∀ e ∈ splitEntriesFor nid entries,
      entryName e.samplerSym = e.origName := by
    intro e he
    rcases (hshape e he).2.1 with ⟨k, j, htex, hsmp⟩
    rw [hsmp]
    rfl
  have hcolPW : List.Pairwise (fun a b => stringLt a b = true)
      ((collectLinkerMap isSamplerCandidate entries).map (fun e => e.1)) := by
    rw [collectLinkerMap]
    exact collectFold_keys_pairwise _ entries [] List.Pairwise.nil
  have hesNodup : ((splitEntriesFor nid entries).map (fun e => e.origName)).Nodup := by
    rw [splitEntriesFor, splitBuild_names]
    exact hcolPW.imp (fun h => stringLt_ne h)
  apply linkerInvariant_mk (List.getLast?_concat _)
  · exact splitSurgery_all_ext hextPair h1
  · exact hnd
  · rw [List.dropLast_concat, List.all_eq_true]
    intro c' hc'
    rcases List.mem_map.mp hc' with ⟨c, hc, rfl⟩
    have hcc := List.all_eq_true.mp h3 c hc
    rw [Bool.and_eq_true] at hcc
    rw [Bool.and_eq_true]
    have hreplTag : ∀ n, noLinkerTag ((mapFind?
        (splitReplacements (splitEntriesFor nid entries)) n).getD TNode.null)
        = true := by
      intro n
      refine mapFind?_getD_cases (P := fun x => noLinkerTag x = true) rfl ?_
      intro p hp
      rw [splitReplacements] at hp
      rcases List.mem_map.mp hp with ⟨e, he, rfl⟩
      show noLinkerTag e.recon = true
      rcases (hshape e he).2.1 with ⟨k, j, htex, hsmp⟩
      rw [(hshape e he).2.2, htex, hsmp]
      rfl
    constructor
    · exact substCand_noLinkerTag _ _ hreplTag c hcc.1
    · refine substCand_coveredBy isSamplerCandidate _ _ (entries.map entryName) []
        ?_ c hcc.2 (agreesWith_nil c)
      intro i n ty hext _
      by_cases hcand : isSamplerCandidate ty = true
      · rw [if_pos hcand]
        refine mapFind?_getD_cases
          (P := fun x => coveredBy ((splitLinkerSurgery
            (splitEntriesFor nid entries) entries).map entryName) x = true) rfl ?_
        intro p hp
        rw [splitReplacements] at hp
        rcases List.mem_map.mp hp with ⟨e, he, rfl⟩
        show coveredBy _ e.recon = true
        rcases (hshape e he).2.1 with ⟨k, j, htex, hsmp⟩
        have hkey : e.origName ∈
            (collectLinkerMap isSamplerCandidate entries).map (fun q => q.1) :=
          List.mem_map.mpr ⟨(e.origName, e.origTy), (hshape e he).1, rfl⟩
        rcases (collectLinkerMap_keys_mem isSamplerCandidate entries
          e.origName).mp hkey with ⟨i2, ty2, hmem2, _⟩
        have hfind : (splitEntriesFor nid entries).find?
            (fun x => x.origName == e.origName) = some e :=
          find?_self_of_nodup hesNodup he
        have hpair := splitSurgery_contains_pair hmem2 hfind
        have htexN : (e.origName ++ "Texture") ∈
            (splitLinkerSurgery (splitEntriesFor nid entries) entries).map
              entryName :=
          List.mem_map.mpr ⟨e.texture, hpair.1, by rw [htex]; rfl⟩
        have hsmpN : e.origName ∈
            (splitLinkerSurgery (splitEntriesFor nid entries) entries).map
              entryName :=
          List.mem_map.mpr ⟨e.samplerSym, hpair.2, by rw [hsmp]; rfl⟩
        rw [(hshape e he).2.2, htex, hsmp]
        show (coveredBy _ (TNode.symbol nid (e.origName ++ "Texture") _)
          && (coveredBy _ (TNode.symbol (nid + 1) e.origName _)
            && true)) = true
        rw [Bool.and_eq_true, Bool.and_eq_true]
        refine ⟨?_, ?_, rfl⟩
        · rw [coveredBy, Bool.or_eq_true]
          exact Or.inr ((containsStr_iff _ _).mpr htexN)
        · rw [coveredBy, Bool.or_eq_true]
          exact Or.inr ((containsStr_iff _ _).mpr hsmpN)
      · rw [if_neg hcand]
        rw [coveredBy, Bool.or_eq_true, Bool.not_eq_true']
        by_cases hext2 : ty.qualifier.storage.isExternal = true
        · exact Or.inr ((containsStr_iff _ _).mpr
            (splitSurgery_names_subset hsmpName (hext hext2)))
        · exact Or.inl (by rw [Bool.not_eq_true] at hext2; exact hext2)
theorem mapFind?_of_mem_nodup :
    ∀ {m : List (String × α)}, (m.map (fun e => e.1)).Nodup →
    ∀ {k : String} {v : α}, (k, v) ∈ m → mapFind? m k = some v
  | [], _, k, v => fun h => absurd h (List.not_mem_nil _)
  | (k', v') :: rest, hnd, k, v => by
      intro h
      rw [List.map_cons, List.nodup_cons] at hnd
      rw [mapFind?_cons]
      rcases List.mem_cons.mp h with heq | htl
      · rw [Prod.mk.injEq] at heq
        rw [if_pos heq.1.symm, heq.2]
      · by_cases hk : k' = k
        · exact absurd (by rw [hk]; exact List.mem_map.mpr ⟨(k, v), htl, rfl⟩)
            hnd.1
        · rw [if_neg hk]
          exact mapFind?_of_mem_nodup hnd.2 htl

theorem varyingStep_nameMap (apple : Bool) (st : VaryingBuild) (name : String)
    (ty : TType) :
    ∃ j nn tty, (varyingStep apple st name ty).nameMap
        = mapInsert name (TNode.symbol j nn tty) st.nameMap
      ∧ tty.qualifier.storage = ty.qualifier.storage :=
  ⟨st.nextId, _, _, rfl, rfl⟩

theorem varyingFold_nameMap_values (apple : Bool) :
    ∀ (col : List (String × TType)) (st : VaryingBuild),
    (∀ q ∈ col, q.2.qualifier.storage = TStorage.varyingIn) →
    (∀ p ∈ st.nameMap, ∃ j nn tty, p.2 = TNode.symbol j nn tty
      ∧ tty.qualifier.storage = TStorage.varyingIn) →
    ∀ p ∈ (col.foldl (fun s e => varyingStep apple s e.1 e.2) st).nameMap,
      ∃ j nn tty, p.2 = TNode.symbol j nn tty
        ∧ tty.qualifier.storage = TStorage.varyingIn
  | [], st => fun _ hst => hst
  | (name, ty) :: rest, st => by
      intro hcol hst p hp
      rw [List.foldl_cons] at hp
      refine varyingFold_nameMap_values apple rest (varyingStep apple st name ty)
        (fun q hq => hcol q (List.Mem.tail _ hq)) ?_ p hp
      intro p2 hp2
      rcases varyingStep_nameMap apple st name ty with ⟨j, nn, tty, hmap, hsto⟩
      rw [hmap] at hp2
      rcases mapInsert_mem hp2 with rfl | hold
      · exact ⟨j, nn, tty, rfl,
          hsto.trans (hcol (name, ty) (List.Mem.head _))⟩
      · exact hst p2 hold

theorem varyingFold_keys_mono (apple : Bool) :
    ∀ (col : List (String × TType)) (st : VaryingBuild) {n : String},
    n ∈ st.nameMap.map (fun e => e.1) →
    n ∈ ((col.foldl (fun s e => varyingStep apple s e.1 e.2) st).nameMap).map
      (fun e => e.1)
  | [], st, n => fun h => h
  | (name, ty) :: rest, st, n => by
      intro h
      rw [List.foldl_cons]
      refine varyingFold_keys_mono apple rest (varyingStep apple st name ty) ?_
      rcases varyingStep_nameMap apple st name ty with ⟨j, nn, tty, hmap, _⟩
      rw [hmap]
      exact (mapInsert_keys_mem name n _ st.nameMap).mpr (Or.inr h)

theorem varyingFold_keys_of_col (apple : Bool) :
    ∀ (col : List (String × TType)) (st : VaryingBuild) {n : String},
    n ∈ col.map (fun e => e.1) →
    n ∈ ((col.foldl (fun s e => varyingStep apple s e.1 e.2) st).nameMap).map
      (fun e => e.1)
  | [], st, n => fun h => absurd h (List.not_mem_nil _)
  | (name, ty) :: rest, st, n => by
      intro h
      rw [List.foldl_cons]
      rcases List.mem_cons.mp h with heq | htl
      · refine varyingFold_keys_mono apple rest (varyingStep apple st name ty) ?_
        rcases varyingStep_nameMap apple st name ty with ⟨j, nn, tty, hmap, _⟩
        rw [hmap]
        exact (mapInsert_keys_mem name n _ st.nameMap).mpr (Or.inl heq)
      · exact varyingFold_keys_of_col apple rest _ htl

theorem varyingFold_keys_src (apple : Bool) :
    ∀ (col : List (String × TType)) (st : VaryingBuild) {n : String},
    n ∈ ((col.foldl (fun s e => varyingStep apple s e.1 e.2) st).nameMap).map
      (fun e => e.1) →
    n ∈ st.nameMap.map (fun e => e.1) ∨ n ∈ col.map (fun e => e.1)
  | [], st, n => fun h => Or.inl h
  | (name, ty) :: rest, st, n => by
      intro h
      rw [List.foldl_cons] at h
      rcases varyingFold_keys_src apple rest (varyingStep apple st name ty) h
        with hin | hcol
      · rcases varyingStep_nameMap apple st name ty with ⟨j, nn, tty, hmap, _⟩
        rw [hmap] at hin
        rcases (mapInsert_keys_mem name n _ st.nameMap).mp hin with heq | hold
        · exact Or.inr (List.mem_map.mpr ⟨(name, ty), List.Mem.head _, heq.symm⟩)
        · exact Or.inl hold
      · exact Or.inr (List.Mem.tail _ hcol)

theorem varyingFold_keys_pairwise (apple : Bool) :
    ∀ (col : List (String × TType)) (st : VaryingBuild),
    List.Pairwise (fun a b => stringLt a b = true)
      (st.nameMap.map (fun e => e.1)) →
    List.Pairwise (fun a b => stringLt a b = true)
      (((col.foldl (fun s e => varyingStep apple s e.1 e.2) st).nameMap).map
        (fun e => e.1))
  | [], st => fun h => h
  | (name, ty) :: rest, st => by
      intro h
      rw [List.foldl_cons]
      refine varyingFold_keys_pairwise apple rest (varyingStep apple st name ty) ?_
      rcases varyingStep_nameMap apple st name ty with ⟨j, nn, tty, hmap, _⟩
      rw [hmap]
      exact mapInsert_keys_pairwise name _ st.nameMap h
theorem varying_preserves (apple : Bool) (nid : Nat) {t : TNode}
    (h : linkerInvariant t = true) (ha : bodyAgrees t = true)
    (hnd : nodupStr ((varyingLinkerResult apple nid (linkerEntriesOf t)).map
      entryName) = true) :
    linkerInvariant (assignLocationsAndNamesToVertexVaryings apple nid t)
      = true := by
  obtain ⟨rop, cs, rty, entries, lty, rfl, hlast, h1, h2, h3⟩ := linkerInvariant_inv h
  rw [linkerEntriesOf_eq hlast] at hnd
  have hpass : assignLocationsAndNamesToVertexVaryings apple nid
      (TNode.aggregate rop cs rty) =
      TNode.aggregate rop
        (((cs.dropLast).map (substCand isVaryingCandidate
            (varyingBuildAll apple nid
              (collectLinkerMap isVaryingCandidate entries)).nameMap))
          ++ [TNode.aggregate Op.linkerObjects
              (varyingLinkerResult apple nid entries) lty]) rty := by
    rw [assignLocationsAndNamesToVertexVaryings, hlast]
  rw [hpass]
  have hcolstor : ∀ q ∈ collectLinkerMap isVaryingCandidate entries,
      q.2.qualifier.storage = TStorage.varyingIn := by
    intro q hq
    have hc := collectLinkerMap_values hq
    rw [isVaryingCandidate] at hc
    exact eq_of_beq hc
  have hvals : ∀ p ∈ (varyingBuildAll apple nid
      (collectLinkerMap isVaryingCandidate entries)).nameMap,
      ∃ j nn tty, p.2 = TNode.symbol j nn tty
        ∧ tty.qualifier.storage = TStorage.varyingIn := by
    intro p hp
    rw [varyingBuildAll] at hp
    exact varyingFold_nameMap_values apple _ _ hcolstor
      (fun q hq => absurd hq (List.not_mem_nil _)) p hp
  have hkeysND : ((varyingBuildAll apple nid
      (collectLinkerMap isVaryingCandidate entries)).nameMap.map
      (fun e => e.1)).Nodup := by
    refine (varyingFold_keys_pairwise apple _ _ ?_).imp
      (fun hlt => stringLt_ne hlt)
    exact List.Pairwise.nil
  have hnames_keys : ∀ n : String,
      n ∈ (varyingBuildAll apple nid
        (collectLinkerMap isVaryingCandidate entries)).nameMap.map
        (fun e => e.1) →
      ∃ i2 ty2, TNode.symbol i2 n ty2 ∈ entries
        ∧ isVaryingCandidate ty2 = true := by
    intro n hn
    rw [varyingBuildAll] at hn
    rcases varyingFold_keys_src apple _ _ hn with hempty | hcolk
    · exact absurd hempty (List.not_mem_nil _)
    · exact (collectLinkerMap_keys_mem isVaryingCandidate entries n).mp hcolk
  have himg : ∀ {i2 : Nat} {n : String} {ty2 : TType},
      TNode.symbol i2 n ty2 ∈ entries → isVaryingCandidate ty2 = true →
      ∀ {v : TNode},
      mapFind? (varyingBuildAll apple nid
        (collectLinkerMap isVaryingCandidate entries)).nameMap n = some v →
      v ∈ varyingLinkerResult apple nid entries := by
    intro i2 n ty2 hmem hcand v hfind
    show v ∈ entries.map (fun e =>
      match e with
      | TNode.symbol i3 n3 ty3 =>
          if isVaryingCandidate ty3
          then (mapFind? (varyingBuildAll apple nid
            (collectLinkerMap isVaryingCandidate entries)).nameMap n3).getD
            TNode.null
          else TNode.symbol i3 n3 ty3
      | e => e)
    refine List.mem_map.mpr ⟨TNode.symbol i2 n ty2, hmem, ?_⟩
    show (if isVaryingCandidate ty2
      then (mapFind? (varyingBuildAll apple nid
        (collectLinkerMap isVaryingCandidate entries)).nameMap n).getD TNode.null
      else TNode.symbol i2 n ty2) = v
    rw [if_pos hcand, hfind]
    rfl
  have hagrees : ∀ c ∈ cs.dropLast, agreesWith entries c = true := by
    rw [bodyAgrees, linkerEntriesOf_eq hlast] at ha
    exact List.all_eq_true.mp ha
  apply linkerInvariant_mk (List.getLast?_concat _)
  · -- every new linker entry is an external symbol
    rw [List.all_eq_true]
    intro e' he'
    have he2 : e' ∈ entries.map (fun e =>
      match e with
      | TNode.symbol i3 n3 ty3 =>
          if isVaryingCandidate ty3
          then (mapFind? (varyingBuildAll apple nid
            (collectLinkerMap isVaryingCandidate entries)).nameMap n3).getD
            TNode.null
          else TNode.symbol i3 n3 ty3
      | e => e) := he'
    rcases List.mem_map.mp he2 with ⟨e, he, rfl⟩
    have hext := List.all_eq_true.mp h1 e he
    cases e with
    | symbol i n ty2 =>
        show isExtSymbolEntry (if isVaryingCandidate ty2
          then (mapFind? (varyingBuildAll apple nid
            (collectLinkerMap isVaryingCandidate entries)).nameMap n).getD
            TNode.null
          else TNode.symbol i n ty2) = true
        by_cases hc : isVaryingCandidate ty2 = true
        · rw [if_pos hc]
          have hkey : n ∈ (collectLinkerMap isVaryingCandidate entries).map
              (fun e => e.1) :=
            (collectLinkerMap_keys_mem isVaryingCandidate entries n).mpr
              ⟨i, ty2, he, hc⟩
          have hnk : n ∈ (varyingBuildAll apple nid
              (collectLinkerMap isVaryingCandidate entries)).nameMap.map
              (fun e => e.1) :=
            varyingFold_keys_of_col apple _ _ hkey
          have hsome := (mapFind?_isSome _ n).mpr hnk
          rcases Option.isSome_iff_exists.mp hsome with ⟨v, hv⟩
          rw [hv]
          rcases hvals (n, v) (mapFind?_mem_values hv) with ⟨j, nn, tty, hsym, hsto⟩
          have hsym' : v = TNode.symbol j nn tty := hsym
          rw [hsym']
          show TStorage.isExternal tty.qualifier.storage = true
          rw [hsto]
          rfl
        · rw [if_neg hc]
          exact hext
    | constUnion v ty2 => exact hext
    | aggregate op cs2 ty2 => exact hext
    | binary op l r ty2 => exact hext
    | unary op o ty2 => exact hext
    | null => exact hext
  · exact hnd
  · rw [List.dropLast_concat, List.all_eq_true]
    intro c' hc'
    rcases List.mem_map.mp hc' with ⟨c, hc, rfl⟩
    have hcc := List.all_eq_true.mp h3 c hc
    rw [Bool.and_eq_true] at hcc
    rw [Bool.and_eq_true]
    constructor
    · refine substCand_noLinkerTag _ _ ?_ c hcc.1
      intro n
      refine mapFind?_getD_cases (P := fun x => noLinkerTag x = true) rfl ?_
      intro p hp
      rcases hvals p hp with ⟨j, nn, tty, hsym, _⟩
      rw [hsym]
      rfl
    · refine substCand_coveredBy isVaryingCandidate _ _ (entries.map entryName)
        entries ?_ c hcc.2 (hagrees c hc)
      intro i n ty hext hagr
      by_cases hcand : isVaryingCandidate ty = true
      · rw [if_pos hcand]
        refine mapFind?_getD_cases
          (P := fun x => coveredBy ((varyingLinkerResult apple nid entries).map
            entryName) x = true) rfl ?_
        intro p hp
        rcases hvals p hp with ⟨j, nn, tty, hsym, hsto⟩
        have hk : p.1 ∈ (varyingBuildAll apple nid
            (collectLinkerMap isVaryingCandidate entries)).nameMap.map
            (fun e => e.1) := List.mem_map.mpr ⟨p, hp, rfl⟩
        rcases hnames_keys p.1 hk with ⟨i2, ty2, hmem2, hc2⟩
        have hfind : mapFind? (varyingBuildAll apple nid
            (collectLinkerMap isVaryingCandidate entries)).nameMap p.1
            = some p.2 := mapFind?_of_mem_nodup hkeysND hp
        have hv : p.2 ∈ varyingLinkerResult apple nid entries :=
          himg hmem2 hc2 hfind
        have hnn : entryName p.2 ∈ (varyingLinkerResult apple nid entries).map
            entryName := List.mem_map.mpr ⟨p.2, hv, rfl⟩
        rw [hsym] at hnn ⊢
        rw [coveredBy, Bool.or_eq_true]
        exact Or.inr ((containsStr_iff _ _).mpr hnn)
      · rw [if_neg hcand]
        rw [coveredBy, Bool.or_eq_true, Bool.not_eq_true']
        by_cases hext2 : ty.qualifier.storage.isExternal = true
        · refine Or.inr ?_
          have hnOld := hext hext2
          rcases mem_names_entry h1 hnOld with ⟨i2, ty2, hmem2⟩
          rcases entryTypeOf_of_mem hmem2 with ⟨j2, ty3, hfind3, hmem3⟩
          have hty3 : ty = ty3 := hagr ty3 hfind3
          by_cases hc3 : isVaryingCandidate ty3 = true
          · exact absurd (show isVaryingCandidate ty = true by
              rw [hty3]; exact hc3) hcand
          · rw [containsStr_iff]
            refine List.mem_map.mpr ⟨TNode.symbol j2 n ty3, ?_, rfl⟩
            show TNode.symbol j2 n ty3 ∈ entries.map (fun e =>
              match e with
              | TNode.symbol i3 n3 ty4 =>
                  if isVaryingCandidate ty4
                  then (mapFind? (varyingBuildAll apple nid
                    (collectLinkerMap isVaryingCandidate entries)).nameMap
                    n3).getD TNode.null
                  else TNode.symbol i3 n3 ty4
              | e => e)
            refine List.mem_map.mpr ⟨TNode.symbol j2 n ty3, hmem3, ?_⟩
            show (if isVaryingCandidate ty3
              then (mapFind? (varyingBuildAll apple nid
                (collectLinkerMap isVaryingCandidate entries)).nameMap n).getD
                TNode.null
              else TNode.symbol j2 n ty3) = TNode.symbol j2 n ty3
            rw [if_neg hc3]
        · exact Or.inl (by rw [Bool.not_eq_true] at hext2; exact hext2)
/-- C1, counterexample.  The claim asserts that every pass preserves the
linker-object-section invariant on any tree satisfying it.  The sampler
splitter refutes this: on a legal linker section declaring a combined
sampler `s` next to an unrelated uniform already named `sTexture`, the
splitter's synthesized texture symbol reuses the name `sTexture`
(`name + "Texture"`, line 630), so the post-pass linker section holds two
entries of that name and the uniqueness half of the invariant fails. -/
theorem c1_counterexample :
    linkerInvariant exSamplerCollisionTree = true
    ∧ linkerInvariant
        (splitSamplersIntoSamplersAndTextures 100 exSamplerCollisionTree)
      = false := by
  decide

/-- C1, amended.  Each of the five passes preserves the linker-object
invariant, under the side conditions the source actually relies on: body
symbols agree in type with their linker entries; the packer's synthetic
struct name `anon@0` is fresh; the promoter preserves the invariant
whenever it returns a tree at all; and the binder and splitter preserve it
provided their freshly synthesized names do not collide with the remaining
entry names (the splitter's `name + "Texture"` and the binder's renaming
perform no collision check, so uniqueness there is an assumption, not a
consequence). -/
theorem c1_amended (nid : Nat) {t : TNode}
    (h : linkerInvariant t = true) (ha : bodyAgrees t = true) :
    (packFresh t = true →
      linkerInvariant (moveNonSamplerUniformsIntoStruct nid t) = true)
    ∧ (∀ t', changeUniformTypes t = .ok t' → linkerInvariant t' = true)
    ∧ (∀ apple : Bool,
        nodupStr ((varyingLinkerResult apple nid (linkerEntriesOf t)).map
          entryName) = true →
        linkerInvariant (assignLocationsAndNamesToVertexVaryings apple nid t)
          = true)
    ∧ (nodupStr ((splitLinkerSurgery (splitEntriesFor nid (linkerEntriesOf t))
          (linkerEntriesOf t)).map entryName) = true →
        linkerInvariant (splitSamplersIntoSamplersAndTextures nid t) = true)
    ∧ linkerInvariant (invertYDerivativeOperands t) = true := by
  refine ⟨?_, ?_, ?_, ?_, ?_⟩
  · intro hf
    exact pack_preserves nid h hf ha
  · intro t' hp
    exact promote_preserves h hp
  · intro apple hnd
    exact varying_preserves apple nid h ha hnd
  · intro hnd
    exact split_preserves nid h hnd
  · exact invert_preserves h

/-- C1, witness: on the well-formed example tree all five passes preserve
the invariant, with every side condition discharged concretely. -/
theorem c1_witness :
    linkerInvariant (moveNonSamplerUniformsIntoStruct 50 exGoodTree) = true
    ∧ linkerInvariant exGoodPromoted = true
    ∧ linkerInvariant
        (assignLocationsAndNamesToVertexVaryings false 50 exGoodTree) = true
    ∧ linkerInvariant (splitSamplersIntoSamplersAndTextures 50 exGoodTree)
        = true
    ∧ linkerInvariant (invertYDerivativeOperands exGoodTree) = true := by
  have H := c1_amended 50 (t := exGoodTree) (by decide) (by decide)
  exact ⟨H.1 (by decide), H.2.1 exGoodPromoted rfl, H.2.2.1 false (by decide),
    H.2.2.2.1 (by decide), H.2.2.2.2⟩
